import Mathlib

/-!
Shallow embedding of the `ComamndLineOption` C++ library
(`include/CommandLineOption.hpp`, `src/CommandLineOption.cpp`) and proofs
about the claims of its specification.

Modelling conventions:
* `std::string` is modelled by `String`; byte-oriented C++ operations
  (`find`, `substr` at a position of an ASCII delimiter, per-byte checks on
  `'-'`) are modelled on the character list `String.toList`, which agrees
  with the byte view because the delimiters involved (`'-'`, `'='`, `' '`,
  `','`) are single-byte and UTF-8 continuation bytes never equal them.
  `std::string::length()` used for help-column padding is byte-oriented and
  is modelled by `String.utf8ByteSize`.
* `std::size_t` values are modelled by `Nat`; the implicit
  `size_t -> int` narrowing conversion applied to `Value::limit()` when
  rendering help text is modelled by `toIntCast32` (two's-complement
  wrap-around to a 32-bit signed value, the behaviour C++20 defines).
* the element type parameter `T` of `Value<T>` / `OptionHasValue<T>` ranges
  over `int` and `std::string` in this development; it is modelled by the
  tag `VType` together with the value universe `VVal`.
* exceptions (`std::logic_error`, `std::runtime_error`) are modelled by
  `Except Err` with the thrown message preserved verbatim.
* the `while (p < argc)` parse loop of `CommandLineOption::parse` is not
  structurally recursive (the cursor does not advance on every path), so it
  is modelled with an explicit fuel argument; a result of `none` means the
  loop did not finish within the given number of iterations.
* `argv` is modelled as the list of tokens `argv[1], ..., argv[argc-1]`
  (the loop starts at `p = 1`, skipping the program name).
-/

set_option autoImplicit false

/-- Exception universe: `std::logic_error` and `std::runtime_error`. -/
inductive Err where
  | logicError (msg : String) : Err
  | runtimeError (msg : String) : Err
deriving DecidableEq

/-- Enum `OPTION_PATTERN` of the source. -/
inductive OPTION_PATTERN where
  | OPTION : OPTION_PATTERN
  | LONG_OPTION : OPTION_PATTERN
deriving DecidableEq

/-- Enum `OPTION_ARG_PATTERN` of the source. -/
inductive OPTION_ARG_PATTERN where
  | NONE : OPTION_ARG_PATTERN
  | NEXT_ARG : OPTION_ARG_PATTERN
  | EQUAL_SIGN : OPTION_ARG_PATTERN
  | ALL_AVAILABLE : OPTION_ARG_PATTERN
deriving DecidableEq

/-- Numeric value of each `OPTION_ARG_PATTERN` enumerator. -/
def argPatternVal : OPTION_ARG_PATTERN → Nat
  | OPTION_ARG_PATTERN.NONE => 0
  | OPTION_ARG_PATTERN.NEXT_ARG => 1
  | OPTION_ARG_PATTERN.EQUAL_SIGN => 2
  | OPTION_ARG_PATTERN.ALL_AVAILABLE => 3

/-- `check_pattern` of the source: with `pattern = NONE` it is an equality
test, otherwise a bitmask inclusion test. -/
def check_pattern (ref pattern : OPTION_ARG_PATTERN) : Bool :=
  if pattern = OPTION_ARG_PATTERN.NONE then ref = pattern
  else (argPatternVal ref &&& argPatternVal pattern) = argPatternVal pattern

/-- Tags for the element types `T` used with `Value<T>` in this development. -/
inductive VType where
  | int : VType
  | str : VType
deriving DecidableEq

/-- Universe of element values for the types of `VType`. -/
inductive VVal where
  | i (n : Int) : VVal
  | s (v : String) : VVal
deriving DecidableEq

/-- `type_name<T>()` of the source, restricted to the types of `VType`. -/
def type_name : VType → String
  | VType.int => "int"
  | VType.str => "std::string"

/-- Rendering of a single value through `operator<<` (used by
`OptionHasValue::to_string`). -/
def vvToString : VVal → String
  | VVal.i n => toString n
  | VVal.s v => v

/-- `OptionHasValue::to_string` on a vector: comma-separated rendering.
The empty-list case is unreachable in the source (guarded by
`use_default_value()`); it is mapped to `""`. -/
def vvListToString : List VVal → String
  | [] => ""
  | x :: r => vvToString x ++ String.join (r.map (fun e => "," ++ vvToString e))

/-- Whitespace as classified by `std::isspace` in the default locale
(skipped by `operator>>` before reading a number). -/
def isSpaceCpp (c : Char) : Bool :=
  c = ' ' || c = '\t' || c = '\n' || c = '\x0b' || c = '\x0c' || c = '\r'

/-- Digits of a decimal literal folded to a `Nat`. -/
def digitsToNat (l : List Char) : Nat :=
  l.foldl (fun a c => a * 10 + (c.toNat - 48)) 0

/-- `transform<int>` of the source: `istringstream >> int` followed by the
check that the whole input was consumed.  Succeeds exactly on optional
leading whitespace, an optional sign, one or more decimal digits reaching
the end of the string, with the value in `int` range (overflow sets
`failbit`).  `none` models the thrown conversion error. -/
def parseIntCpp (str : String) : Option Int :=
  let t := str.toList.dropWhile isSpaceCpp
  let signAndRest : Int × List Char :=
    match t with
    | '+' :: r => (1, r)
    | '-' :: r => (-1, r)
    | _ => (1, t)
  let ds := signAndRest.2.takeWhile Char.isDigit
  if ds.isEmpty then none
  else if !(signAndRest.2.drop ds.length).isEmpty then none
  else
    let v : Int := signAndRest.1 * (digitsToNat ds : Int)
    if v < -2147483648 ∨ 2147483647 < v then none else some v

/-- `transform<T>` of the source: conversion of a raw token to the element
type; the `std::string` specialisation is the identity.  The error value is
the message of the thrown `std::runtime_error`. -/
def transform (t : VType) (str : String) : Except String VVal :=
  match t with
  | VType.str => Except.ok (VVal.s str)
  | VType.int =>
    match parseIntCpp str with
    | some v => Except.ok (VVal.i v)
    | none => Except.error (str ++ " は型 " ++ type_name VType.int ++ " に変換することはできません")

/-- Position of the first occurrence of a character in a list
(`std::string::find`; `none` models `npos`). -/
def findCharL : List Char → Char → Option Nat
  | [], _ => none
  | c :: r, d => if c = d then some 0 else (findCharL r d).map (· + 1)

/-- The C++ comparison `i == s.length() - 1` on `std::size_t`, where `i` is
a `find` result: with `i = npos` it holds exactly when the string is empty
(`npos = SIZE_MAX = 0 - 1`). -/
def atLastPos (i : Option Nat) (len : Nat) : Bool :=
  match i with
  | some k => k + 1 = len
  | none => len = 0

/-- `s.substr(0, i)` where `i` is a `find` result (`npos` keeps the whole
string). -/
def substrTo (s : String) (i : Option Nat) : String :=
  match i with
  | some k => String.mk (s.toList.take k)
  | none => s

/-- Value of a `find` result used after an `isSome` guard (the `none` arm is
unreachable at every use site). -/
def idxVal : Option Nat → Nat
  | some k => k
  | none => 0

/-- `is_option` of the source: `-x...` with second byte neither `'-'` nor
the terminator. -/
def is_option (s : String) : Bool :=
  match s.toList with
  | '-' :: c :: _ => c ≠ '-' && c ≠ '\x00'
  | _ => false

/-- `is_long_option` of the source: `--x...` with third byte neither `'-'`
nor the terminator. -/
def is_long_option (s : String) : Bool :=
  match s.toList with
  | '-' :: '-' :: c :: _ => c ≠ '-' && c ≠ '\x00'
  | _ => false

/-- Worker for `split`: `std::getline(stream, field, delimiter)` loop.  A
trailing delimiter does not produce a trailing empty field (the next
`getline` fails at end-of-stream). -/
def splitGo (delimiter : Char) : List Char → List Char → List String
  | [], acc => [String.mk acc.reverse]
  | c :: rest, acc =>
    if c = delimiter then
      if rest.isEmpty then [String.mk acc.reverse]
      else String.mk acc.reverse :: splitGo delimiter rest []
    else splitGo delimiter rest (c :: acc)

/-- `split` of the source (via `std::getline`); the empty input yields no
fields. -/
def split (input : List Char) (delimiter : Char) : List String :=
  if input.isEmpty then [] else splitGo delimiter input []

/-- `size_t -> int` narrowing used when `Value::limit()` is passed to the
`description` helpers (32-bit two's-complement wrap-around; `unlimited()`
i.e. `SIZE_MAX` becomes `-1`). -/
def toIntCast32 (n : Nat) : Int :=
  let r := n % 4294967296
  if r < 2147483648 then (r : Int) else (r : Int) - 4294967296

/-- `Value<T>` of the source: configuration of a value-bearing option. -/
structure Value where
  default_value : List VVal
  constraint : Option (VVal → Bool)
  limit : Nat
  name : String

/-- `Value()` default constructor. -/
def Value.empty : Value := ⟨[], none, 1, "arg"⟩

/-- `Value(const T& x)` constructor: one seeded default. -/
def Value.single (x : VVal) : Value := ⟨[x], none, 1, "arg"⟩

/-- `Value(std::initializer_list<T>)` constructor. -/
def Value.ofList (xs : List VVal) : Value := ⟨xs, none, 1, "arg"⟩

/-- `Value::limit(l)`: rejects `0` and any limit below the number of seeded
defaults. -/
def Value.limitSet (v : Value) (l : Nat) : Except Err Value :=
  if l = 0 then Except.error (Err.logicError "保持する引数の数は0に設定することはできません")
  else if l < v.default_value.length then
    Except.error (Err.logicError "デフォルト引数の数が引数の数の制限を超過しています")
  else Except.ok { v with limit := l }

/-- `Value::unlimited()`: sets the limit to `SIZE_MAX`. -/
def Value.unlimited (v : Value) : Value := { v with limit := 18446744073709551615 }

/-- `Value::name(n)`. -/
def Value.nameSet (v : Value) (n : String) : Value := { v with name := n }

/-- `Value::constraint(f)`: every seeded default must satisfy the predicate,
checked eagerly; the first violating default is reported. -/
def Value.constraintSet (v : Value) (f : VVal → Bool) : Except Err Value :=
  match v.default_value.find? (fun x => !f x) with
  | some bad =>
    Except.error (Err.logicError ("デフォルト引数 " ++ vvToString bad ++ " は制約条件を満たしていません"))
  | none => Except.ok { v with constraint := some f }

/-- `Value::use_default_value()`. -/
def Value.use_default_value (v : Value) : Bool := !v.default_value.isEmpty

/-- Data shared by both option variants (class `Option` of the source,
named `Opt*` here because `Option` is taken by Lean). -/
structure OptBase where
  name : String
  descript : String
  use : Bool
  pattern : OPTION_PATTERN

/-- Data of the valued variant `OptionHasValue<T>`. -/
structure HasValueData where
  value_info : Value
  value : List VVal
  tag : VType
  arg_pattern : OPTION_ARG_PATTERN

/-- An option entity: the plain flag variant (class `Option`) or the valued
variant (class `OptionHasValue<T>`). -/
inductive Opt where
  | plain (base : OptBase) : Opt
  | valued (base : OptBase) (d : HasValueData) : Opt

/-- Base subobject of an entity. -/
def Opt.base : Opt → OptBase
  | Opt.plain b => b
  | Opt.valued b _ => b

/-- `Option::use(bool)` setter. -/
def Opt.setUse (o : Opt) (f : Bool) : Opt :=
  match o with
  | Opt.plain b => Opt.plain { b with use := f }
  | Opt.valued b d => Opt.valued { b with use := f } d

/-- Virtual `useable_argument()`: `NONE` for flags, the stored pattern for
valued options. -/
def Opt.useable_argument : Opt → OPTION_ARG_PATTERN
  | Opt.plain _ => OPTION_ARG_PATTERN.NONE
  | Opt.valued _ d => d.arg_pattern

/-- `Option::full_option_name()`: the name with its `-`/`--` pattern
applied (used by the free function `full_option_name` on the base). -/
def fullOptionNameB (b : OptBase) : String :=
  match b.pattern with
  | OPTION_PATTERN.OPTION => "-" ++ b.name
  | OPTION_PATTERN.LONG_OPTION => "--" ++ b.name

/-- `Option::full_option_name()` on an entity. -/
def Opt.full_option_name (o : Opt) : String := fullOptionNameB o.base

/-- Virtual `limit()`: `0` for flags, `value_info_m.limit()` for valued
options. -/
def Opt.limit : Opt → Nat
  | Opt.plain _ => 0
  | Opt.valued _ d => d.value_info.limit

/-- `Option` constructor: validates that the name is non-empty, does not
start with `'-'` and contains neither `'='` nor `' '`. -/
def Option_mk (name desc : String) (pattern : OPTION_PATTERN) : Except Err OptBase :=
  if name.toList.length = 0 then
    Except.error (Err.logicError "空のoption名は定義することはできません")
  else if name.toList.head? = some '-' then
    Except.error (Err.logicError "option名の1文字目は'-'にすることはできません")
  else if (findCharL name.toList '=').isSome then
    Except.error (Err.logicError "optionに等号を含めることはできません")
  else if (findCharL name.toList ' ').isSome then
    Except.error (Err.logicError "optionに空白スペースを含めることはできません")
  else Except.ok { name := name, descript := desc, use := false, pattern := pattern }

/-- `OptionHasValue<T>` constructor: base validation plus the rejection of
`OPTION_ARG_PATTERN::NONE` for a value-bearing option. -/
def OptionHasValue_mk (value_info : Value) (tag : VType) (name desc : String)
    (pattern : OPTION_PATTERN) (arg_pattern : OPTION_ARG_PATTERN) :
    Except Err (OptBase × HasValueData) :=
  match Option_mk name desc pattern with
  | Except.error e => Except.error e
  | Except.ok b =>
    if arg_pattern = OPTION_ARG_PATTERN.NONE then
      Except.error (Err.logicError "引数をもつoptionに対して、引数をもたないようにする指定はできません")
    else Except.ok (b, ⟨value_info, [], tag, arg_pattern⟩)

/-- `OptionHasValue::add_value(const T&)`: constraint check, clearing of the
stored values on the first addition since creation (detected through the
`use` flag), append below the limit or overwrite of the last slot at the
limit, and setting of the `use` flag. -/
def constraintPass (d : HasValueData) (v : VVal) : Bool :=
  match d.value_info.constraint with
  | some f => f v
  | none => true

def addValueV (b : OptBase) (d : HasValueData) (v : VVal) : Except Err (OptBase × HasValueData) :=
  if !constraintPass d v then
    Except.error (Err.runtimeError
      ("option " ++ fullOptionNameB b ++ " に対する引数 " ++ vvToString v ++ " は制約条件を満たしていません"))
  else
    let vals := if !b.use then [] else d.value
    let vals' := if vals.length < d.value_info.limit then vals ++ [v]
                 else vals.set (d.value_info.limit - 1) v
    Except.ok ({ b with use := true }, { d with value := vals' })

/-- `OptionHasValue::add_value(const std::vector<T>&)`: element-wise
addition. -/
def addValueList (b : OptBase) (d : HasValueData) : List VVal → Except Err (OptBase × HasValueData)
  | [] => Except.ok (b, d)
  | v :: rest =>
    match addValueV b d v with
    | Except.error e => Except.error e
    | Except.ok (b', d') => addValueList b' d' rest

/-- Virtual `add_value_s`: a flag rejects any value; a valued option
converts the token and adds the result, wrapping a conversion failure with
the option name. -/
def Opt.add_value_s (o : Opt) (value_s : String) : Except Err Opt :=
  match o with
  | Opt.plain b =>
    Except.error (Err.runtimeError ("option " ++ fullOptionNameB b ++ " で引数を受け取ることはできません"))
  | Opt.valued b d =>
    match transform d.tag value_s with
    | Except.error msg =>
      Except.error (Err.runtimeError ("option " ++ fullOptionNameB b ++ " に対する引数 " ++ msg))
    | Except.ok v =>
      match addValueV b d v with
      | Except.error e => Except.error e
      | Except.ok (b', d') => Except.ok (Opt.valued b' d')

/-- `description_name` of the source: the `-`/`--` form of the name. -/
def description_name (opt : String) (option_pattern : OPTION_PATTERN) : String :=
  match option_pattern with
  | OPTION_PATTERN.OPTION => "-" ++ opt
  | OPTION_PATTERN.LONG_OPTION => "--" ++ opt

/-- `description_arg(arg_name, limit, default_value)` of the source. -/
def description_arg_dv (arg_name : String) (limit : Int) (default_value : String) : String :=
  "<" ++ arg_name
      ++ (if limit < 0 then "..." else if 1 < limit then "...[1-" ++ toString limit ++ "]" else "")
      ++ ">" ++ "(=" ++ default_value ++ ")"

/-- `description_arg(arg_name, limit)` of the source. -/
def description_arg (arg_name : String) (limit : Int) : String :=
  "<" ++ arg_name
      ++ (if limit < 0 then "..." else if 1 < limit then "...[1-" ++ toString limit ++ "]" else "")
      ++ ">"

/-- `description_op` of the source: the separator between option name and
argument placeholder; `NONE` throws. -/
def description_op (option_pattern : OPTION_PATTERN) (arg_pattern : OPTION_ARG_PATTERN) :
    Except Err String :=
  match arg_pattern with
  | OPTION_ARG_PATTERN.NEXT_ARG => Except.ok " "
  | OPTION_ARG_PATTERN.EQUAL_SIGN => Except.ok "="
  | OPTION_ARG_PATTERN.ALL_AVAILABLE =>
    Except.ok (if option_pattern = OPTION_PATTERN.OPTION then " " else "[ |=]")
  | OPTION_ARG_PATTERN.NONE => Except.error (Err.logicError "未知の引数の受け取り方を指定しています")

/-- Free function `description(option, arg_name, pattern, arg_pattern,
limit, default_value)` of the source. -/
def description_dv (opt arg_name : String) (option_pattern : OPTION_PATTERN)
    (arg_pattern : OPTION_ARG_PATTERN) (limit : Int) (default_value : String) :
    Except Err String :=
  match description_op option_pattern arg_pattern with
  | Except.error e => Except.error e
  | Except.ok op => Except.ok (description_name opt option_pattern ++ op ++ description_arg_dv arg_name limit default_value)

/-- Free function `description(option, arg_name, pattern, arg_pattern,
limit)` of the source. -/
def description_nodv (opt arg_name : String) (option_pattern : OPTION_PATTERN)
    (arg_pattern : OPTION_ARG_PATTERN) (limit : Int) : Except Err String :=
  match description_op option_pattern arg_pattern with
  | Except.error e => Except.error e
  | Except.ok op => Except.ok (description_name opt option_pattern ++ op ++ description_arg arg_name limit)

/-- Virtual `description()`: the (signature, description-text) pair of an
entity; the valued variant renders placeholder, limit and defaults. -/
def Opt.description : Opt → Except Err (String × String)
  | Opt.plain b =>
    Except.ok (match b.pattern with
      | OPTION_PATTERN.OPTION => ("-" ++ b.name, b.descript)
      | OPTION_PATTERN.LONG_OPTION => ("--" ++ b.name, b.descript))
  | Opt.valued b d =>
    let sig :=
      if d.value_info.use_default_value then
        description_dv b.name d.value_info.name b.pattern d.arg_pattern
          (toIntCast32 d.value_info.limit) (vvListToString d.value_info.default_value)
      else
        description_nodv b.name d.value_info.name b.pattern d.arg_pattern
          (toIntCast32 d.value_info.limit)
    match sig with
    | Except.error e => Except.error e
    | Except.ok s => Except.ok (s, b.descript)

/-- `OptionMap` of the source.  The `order_options` entries model the
`weak_ptr` references of the registration-order sequence: an entry
`(isLong, k)` refers to slot `k` of `long_options` (when `isLong`) or of
`options`. -/
structure OptionMap where
  options : List Opt
  long_options : List Opt
  order_options : List (Bool × Nat)
  none_options : List String

/-- The empty `OptionMap` (default constructor). -/
def OptionMap.empty : OptionMap := ⟨[], [], [], []⟩

/-- `weak_ptr::lock` on an order entry: the referenced entity, when still
present. -/
def lockRef (m : OptionMap) (e : Bool × Nat) : Option Opt :=
  if e.1 then m.long_options.get? e.2 else m.options.get? e.2

/-- Worker for `OptionMap::clone`: rebuilds both partitions (and fresh
order references) from the registration-order sequence, dispatching on each
entity's own `option_pattern()`.  A dangling reference models the undefined
behaviour of dereferencing an expired `weak_ptr` and is mapped to an
error. -/
def cloneGo (m : OptionMap) : List (Bool × Nat) → OptionMap → Except Err OptionMap
  | [], acc => Except.ok acc
  | e :: rest, acc =>
    match lockRef m e with
    | none => Except.error (Err.logicError "expired option reference")
    | some p =>
      match p.base.pattern with
      | OPTION_PATTERN.OPTION =>
        cloneGo m rest { acc with options := acc.options ++ [p],
                                  order_options := acc.order_options ++ [(false, acc.options.length)] }
      | OPTION_PATTERN.LONG_OPTION =>
        cloneGo m rest { acc with long_options := acc.long_options ++ [p],
                                  order_options := acc.order_options ++ [(true, acc.long_options.length)] }

/-- `OptionMap::clone` of the source: deep copy driven by the registration
order, plus a copy of the leftover tokens. -/
def OptionMap.clone (m : OptionMap) : Except Err OptionMap :=
  cloneGo m m.order_options ⟨[], [], [], m.none_options⟩

/-- `OptionMap::ouse`: first short option with the given bare name, else a
lookup error. -/
def OptionMap.ouse (m : OptionMap) (o : String) : Except Err Opt :=
  match m.options.find? (fun opt => opt.base.name = o) with
  | some opt => Except.ok opt
  | none => Except.error (Err.logicError ("-" ++ o ++ " というoptionは存在しません"))

/-- `OptionMap::luse`: with a trailing `'='` the first EQUAL_SIGN-capable
long option of the bare name, otherwise the first long option whose name
matches the argument exactly; a lookup error when none matches. -/
def OptionMap.luse (m : OptionMap) (l : String) : Except Err Opt :=
  let i := findCharL l.toList '='
  let found :=
    if atLastPos i l.toList.length then
      let ll := substrTo l i
      m.long_options.find? (fun opt =>
        opt.base.name = ll && check_pattern opt.useable_argument OPTION_ARG_PATTERN.EQUAL_SIGN)
    else
      m.long_options.find? (fun opt => opt.base.name = l)
  match found with
  | some opt => Except.ok opt
  | none => Except.error (Err.logicError ("--" ++ l ++ " というlong optionは存在しません"))

/-- `OptionMap::use`: a trailing `'='` selects an EQUAL_SIGN-capable long
option, a trailing `' '` selects a NEXT_ARG-capable long option, otherwise
the short then the long partition are searched by exact name. -/
def OptionMap.use (m : OptionMap) (o : String) : Except Err Opt :=
  let i := findCharL o.toList '='
  let j := findCharL o.toList ' '
  let found :=
    if atLastPos i o.toList.length then
      let oo := substrTo o i
      m.long_options.find? (fun opt =>
        opt.base.name = oo && check_pattern opt.useable_argument OPTION_ARG_PATTERN.EQUAL_SIGN)
    else if atLastPos j o.toList.length then
      let oo := substrTo o j
      m.long_options.find? (fun opt =>
        opt.base.name = oo && check_pattern opt.useable_argument OPTION_ARG_PATTERN.NEXT_ARG)
    else
      match m.options.find? (fun opt => opt.base.name = o) with
      | some opt => some opt
      | none => m.long_options.find? (fun opt => opt.base.name = o)
  match found with
  | some opt => Except.ok opt
  | none => Except.error (Err.logicError (o ++ " というoptionおよびlong optionは存在しません"))

/-- `explicit operator bool` of `OptionWrapper`: the `use` flag of the
wrapped entity. -/
def OptionWrapper.toBool (o : Opt) : Bool := o.base.use

/-- Shared front half of `OptionWrapper::as<T>`: capability check and the
checked downcast (`dynamic_cast`) to `OptionHasValue<value_type>`. -/
def OptionWrapper.cast (o : Opt) (t : VType) : Except Err (OptBase × HasValueData) :=
  if check_pattern o.useable_argument OPTION_ARG_PATTERN.NONE then
    Except.error (Err.logicError ("option " ++ o.full_option_name ++ " から引数を受け取ることはできません"))
  else
    match o with
    | Opt.plain b =>
      Except.error (Err.logicError
        ("option " ++ fullOptionNameB b ++ " から型な" ++ type_name t ++ " な引数を受け取ることはできません"))
    | Opt.valued b d =>
      if d.tag = t then Except.ok (b, d)
      else Except.error (Err.logicError
        ("option " ++ fullOptionNameB b ++ " から型な" ++ type_name t ++ " な引数を受け取ることはできません"))

/-- `OptionWrapper::as<T>` with scalar `T` (so `T = value_type`): the first
stored element; an empty store is an error. -/
def OptionWrapper.asScalar (o : Opt) (t : VType) : Except Err VVal :=
  match OptionWrapper.cast o t with
  | Except.error e => Except.error e
  | Except.ok (b, d) =>
    match d.value with
    | [] => Except.error (Err.runtimeError ("option " ++ fullOptionNameB b ++ " は引数をもっていません"))
    | v :: _ => Except.ok v

/-- `OptionWrapper::as<T>` with container `T` (element type `value_type`):
the full stored sequence; an empty store is an error. -/
def OptionWrapper.asContainer (o : Opt) (t : VType) : Except Err (List VVal) :=
  match OptionWrapper.cast o t with
  | Except.error e => Except.error e
  | Except.ok (b, d) =>
    if d.value.isEmpty then
      Except.error (Err.runtimeError ("option " ++ fullOptionNameB b ++ " は引数をもっていません"))
    else Except.ok d.value

/-- `AddOptions::l(name, desc)`: registration of a plain long option. -/
def AddOptions.lFlag (m : OptionMap) (name desc : String) : Except Err OptionMap :=
  match Option_mk name desc OPTION_PATTERN.LONG_OPTION with
  | Except.error e => Except.error e
  | Except.ok b =>
    Except.ok { m with long_options := m.long_options ++ [Opt.plain b],
                       order_options := m.order_options ++ [(true, m.long_options.length)] }

/-- `AddOptions::o(name, desc)`: registration of a plain short option. -/
def AddOptions.oFlag (m : OptionMap) (name desc : String) : Except Err OptionMap :=
  match Option_mk name desc OPTION_PATTERN.OPTION with
  | Except.error e => Except.error e
  | Except.ok b =>
    Except.ok { m with options := m.options ++ [Opt.plain b],
                       order_options := m.order_options ++ [(false, m.options.length)] }

/-- `AddOptions::l(name, value, desc)`: registration of a valued long
option.  A trailing `'='` (first `'='` at the last position, with the
`size_t` wrap-around of `length() - 1`) pins EQUAL_SIGN, a trailing `' '`
pins NEXT_ARG; seeded defaults are installed through `add_value`. -/
def AddOptions.lValue (m : OptionMap) (name : String) (value : Value) (tag : VType)
    (desc : String) : Except Err OptionMap :=
  let i := findCharL name.toList '='
  let j := findCharL name.toList ' '
  let made :=
    if atLastPos i name.toList.length then
      OptionHasValue_mk value tag (substrTo name i) desc OPTION_PATTERN.LONG_OPTION
        OPTION_ARG_PATTERN.EQUAL_SIGN
    else if atLastPos j name.toList.length then
      OptionHasValue_mk value tag (substrTo name j) desc OPTION_PATTERN.LONG_OPTION
        OPTION_ARG_PATTERN.NEXT_ARG
    else
      OptionHasValue_mk value tag name desc OPTION_PATTERN.LONG_OPTION
        OPTION_ARG_PATTERN.ALL_AVAILABLE
  match made with
  | Except.error e => Except.error e
  | Except.ok (b, d) =>
    let seeded :=
      if value.use_default_value then addValueList b d value.default_value
      else Except.ok (b, d)
    match seeded with
    | Except.error e => Except.error e
    | Except.ok (b', d') =>
      Except.ok { m with long_options := m.long_options ++ [Opt.valued b' d'],
                         order_options := m.order_options ++ [(true, m.long_options.length)] }

/-- `AddOptions::o(name, value, desc)`: registration of a valued short
option (always `ALL_AVAILABLE`; no suffix handling). -/
def AddOptions.oValue (m : OptionMap) (name : String) (value : Value) (tag : VType)
    (desc : String) : Except Err OptionMap :=
  match OptionHasValue_mk value tag name desc OPTION_PATTERN.OPTION
          OPTION_ARG_PATTERN.ALL_AVAILABLE with
  | Except.error e => Except.error e
  | Except.ok (b, d) =>
    let seeded :=
      if value.use_default_value then addValueList b d value.default_value
      else Except.ok (b, d)
    match seeded with
    | Except.error e => Except.error e
    | Except.ok (b', d') =>
      Except.ok { m with options := m.options ++ [Opt.valued b' d'],
                         order_options := m.order_options ++ [(false, m.options.length)] }

/-- Cursor advance of one dispatch step of the parse loop: `stay` leaves
`p` unchanged (the long-option branch whose inner conditions all fail),
`one` is `++p`, `two` is `p += 2`. -/
inductive Adv where
  | stay : Adv
  | one : Adv
  | two : Adv
deriving DecidableEq

/-- Remaining token list after applying an advance to `tok :: rest`. -/
def advance (a : Adv) (tok : String) (rest : List String) : List String :=
  match a with
  | Adv.stay => tok :: rest
  | Adv.one => rest
  | Adv.two => rest.drop 1

/-- The short-option dispatch loop of `CommandLineOption::parse`: scans the
short partition for the first entity whose full name equals the token.  On
a NEXT_ARG-capable match the lookahead token is validated and consumed; a
result carries the partition slot, the updated entity, and the cursor
advance. -/
def shortScan (opts : List Opt) (tok : String) (next : Option String) :
    Except Err (Option (Nat × Opt × Adv)) :=
  match opts with
  | [] => Except.ok none
  | o :: rest =>
    if o.full_option_name = tok then
      if check_pattern o.useable_argument OPTION_ARG_PATTERN.NEXT_ARG then
        match next with
        | none =>
          Except.error (Err.runtimeError ("option " ++ o.full_option_name ++ " には引数を指定する必要があります"))
        | some nx =>
          if is_option nx || is_long_option nx then
            Except.error (Err.runtimeError ("option " ++ o.full_option_name ++ " には引数を指定する必要があります"))
          else
            match o.add_value_s nx with
            | Except.error e => Except.error e
            | Except.ok o' => Except.ok (some (0, o', Adv.two))
      else Except.ok (some (0, o.setUse true, Adv.one))
    else
      match shortScan rest tok next with
      | Except.error e => Except.error e
      | Except.ok none => Except.ok none
      | Except.ok (some (j, o', a)) => Except.ok (some (j + 1, o', a))

/-- Comma-separated pieces of an `--opt=a,b,c` token fed through
`add_value_s` in order. -/
def addPieces (o : Opt) : List String → Except Err Opt
  | [] => Except.ok o
  | p :: rest =>
    match o.add_value_s p with
    | Except.error e => Except.error e
    | Except.ok o' => addPieces o' rest

/-- The long-option dispatch loop of `CommandLineOption::parse`.  The token
is split at the first `'='` (position `i`); an entity matches when its full
name equals the part before `'='`.  An EQUAL_SIGN-capable match with `'='`
present consumes the comma-separated values (an empty value part is an
error); without `'='` a NEXT_ARG-capable match consumes the lookahead, a
NONE-capability match (plain flag) is marked used, and a match with neither
capability falls through with the cursor unmoved (`Adv.stay`).  A matching
entity that has `'='` present but lacks EQUAL_SIGN capability is skipped
and the scan continues. -/
def longScan (opts : List Opt) (tok : String) (i : Option Nat) (next : Option String) :
    Except Err (Option (Nat × Opt × Adv)) :=
  match opts with
  | [] => Except.ok none
  | o :: rest =>
    let shifted : Except Err (Option (Nat × Opt × Adv)) :=
      match longScan rest tok i next with
      | Except.error e => Except.error e
      | Except.ok none => Except.ok none
      | Except.ok (some (j, o', a)) => Except.ok (some (j + 1, o', a))
    if o.full_option_name = substrTo tok i then
      if i.isSome && check_pattern o.useable_argument OPTION_ARG_PATTERN.EQUAL_SIGN then
        if atLastPos i tok.toList.length then
          Except.error (Err.runtimeError "=の後には引数を明示的に指定する必要があります")
        else
          match addPieces o (split (tok.toList.drop (idxVal i + 1)) ',') with
          | Except.error e => Except.error e
          | Except.ok o' => Except.ok (some (0, o', Adv.one))
      else if i.isNone then
        if check_pattern o.useable_argument OPTION_ARG_PATTERN.NEXT_ARG then
          match next with
          | none =>
            Except.error (Err.runtimeError ("option " ++ o.full_option_name ++ " には引数を指定する必要があります"))
          | some nx =>
            if is_option nx || is_long_option nx then
              Except.error (Err.runtimeError ("option " ++ o.full_option_name ++ " には引数を指定する必要があります"))
            else
              match o.add_value_s nx with
              | Except.error e => Except.error e
              | Except.ok o' => Except.ok (some (0, o', Adv.two))
        else if check_pattern o.useable_argument OPTION_ARG_PATTERN.NONE then
          Except.ok (some (0, o.setUse true, Adv.one))
        else Except.ok (some (0, o, Adv.stay))
      else shifted
    else shifted

/-- The `while (p < argc)` loop of `CommandLineOption::parse`, with fuel:
one unit per iteration.  `none` means the fuel ran out with tokens left
(in particular, under any fuel on an input where the loop never advances
the cursor). -/
def parseLoop : Nat → OptionMap → List String → Option (Except Err OptionMap)
  | _, st, [] => some (Except.ok st)
  | 0, _, _ :: _ => none
  | Nat.succ n, st, tok :: rest =>
    if is_option tok then
      match shortScan st.options tok rest.head? with
      | Except.error e => some (Except.error e)
      | Except.ok none =>
        some (Except.error (Err.runtimeError (tok ++ " に該当するoptionは存在しません")))
      | Except.ok (some (j, o', a)) =>
        parseLoop n { st with options := st.options.set j o' } (advance a tok rest)
    else if is_long_option tok then
      let i := findCharL tok.toList '='
      match longScan st.long_options tok i rest.head? with
      | Except.error e => some (Except.error e)
      | Except.ok none =>
        some (Except.error (Err.runtimeError (tok ++ " に該当するoptionは存在しません")))
      | Except.ok (some (j, o', a)) =>
        parseLoop n { st with long_options := st.long_options.set j o' } (advance a tok rest)
    else
      parseLoop n { st with none_options := st.none_options ++ [tok] } rest

/-- `CommandLineOption` of the source: the registry template plus the two
help-rendering settings (declared, but — see `claim_C9` — never read by
`description`). -/
structure CommandLineOption where
  map : OptionMap
  optionCols : Nat
  lengthBetweenOptionAndDescription : Nat

/-- `CommandLineOption::parse`: clones the template and runs the token
loop on the clone. -/
def CommandLineOption.parse (c : CommandLineOption) (fuel : Nat) (args : List String) :
    Option (Except Err OptionMap) :=
  match c.map.clone with
  | Except.error e => some (Except.error e)
  | Except.ok st => parseLoop fuel st args

/-- Worker for `CommandLineOption::description`: renders each entity in
registration order; the signature column is padded with spaces to 25 bytes
when it is at most 23 bytes long, otherwise exactly two spaces are
inserted. -/
def descGo (m : OptionMap) : List (Bool × Nat) → String → Except Err String
  | [], acc => Except.ok acc
  | e :: rest, acc =>
    match lockRef m e with
    | none => Except.error (Err.logicError "expired option reference")
    | some p =>
      match p.description with
      | Except.error er => Except.error er
      | Except.ok dp =>
        let pad :=
          if 25 - 2 < dp.1.utf8ByteSize then "  "
          else String.mk (List.replicate (25 - dp.1.utf8ByteSize) ' ')
        descGo m rest (acc ++ "  " ++ dp.1 ++ pad ++ dp.2 ++ "\n")

/-- `CommandLineOption::description`: the help text; the literal `"  None"`
line when no option is registered.  The hard-coded column width 25 and gap
2 mirror the source, which does not consult `optionCols` or
`lengthBetweenOptionAndDescription`. -/
def CommandLineOption.description (c : CommandLineOption) : Except Err String :=
  match descGo c.map c.map.order_options "" with
  | Except.error e => Except.error e
  | Except.ok s =>
    Except.ok (if c.map.order_options.isEmpty then s ++ "  None" ++ "\n" else s)

/-- Adapter for stating concrete parse results: a fueled run that did
finish.  `none` (fuel exhausted) is mapped to a distinguishable error that
the source can never produce. -/
def fuelRes (r : Option (Except Err OptionMap)) : Except Err OptionMap :=
  match r with
  | some x => x
  | none => Except.error (Err.runtimeError "fuel exhausted")

/-- Configuration of the specification round-trip example: a long option
`"count="` with `Value<int>(5).limit(3)`. -/
def cfgCount : Except Err OptionMap :=
  match (Value.single (VVal.i 5)).limitSet 3 with
  | Except.error e => Except.error e
  | Except.ok v => AddOptions.lValue OptionMap.empty "count=" v VType.int "count desc"

/-- The registry built by `cfgCount`, written out: the seeding of the
default through `add_value` has already set the `use` flag and stored the
default value. -/
def mapCount : OptionMap :=
  ⟨[],
   [Opt.valued ⟨"count", "count desc", true, OPTION_PATTERN.LONG_OPTION⟩
      ⟨⟨[VVal.i 5], none, 3, "arg"⟩, [VVal.i 5], VType.int, OPTION_ARG_PATTERN.EQUAL_SIGN⟩],
   [(true, 0)],
   []⟩

/-- Configuration with a single EQUAL_SIGN-only valued long option
`"eq="` and no defaults. -/
def cfgEq : Except Err OptionMap :=
  AddOptions.lValue OptionMap.empty "eq=" Value.empty VType.int "eq desc"

/-- The registry built by `cfgEq`, written out. -/
def mapEq : OptionMap :=
  ⟨[],
   [Opt.valued ⟨"eq", "eq desc", false, OPTION_PATTERN.LONG_OPTION⟩
      ⟨⟨[], none, 1, "arg"⟩, [], VType.int, OPTION_ARG_PATTERN.EQUAL_SIGN⟩],
   [(true, 0)],
   []⟩

/-- Configuration with a single NEXT_ARG-only valued long option,
registered as `"x "` (trailing space). -/
def cfgX : Except Err OptionMap :=
  AddOptions.lValue OptionMap.empty "x " Value.empty VType.int "x desc"

/-- The registry built by `cfgX`, written out. -/
def mapX : OptionMap :=
  ⟨[],
   [Opt.valued ⟨"x", "x desc", false, OPTION_PATTERN.LONG_OPTION⟩
      ⟨⟨[], none, 1, "arg"⟩, [], VType.int, OPTION_ARG_PATTERN.NEXT_ARG⟩],
   [(true, 0)],
   []⟩

/-- Configuration with a single plain long option `"alpha"`. -/
def cfgAlpha : Except Err OptionMap := AddOptions.lFlag OptionMap.empty "alpha" "Adesc"

/-- The registry built by `cfgAlpha`, written out. -/
def mapAlpha : OptionMap :=
  ⟨[], [Opt.plain ⟨"alpha", "Adesc", false, OPTION_PATTERN.LONG_OPTION⟩], [(true, 0)], []⟩

/-- C1: the claim says the first value received during a parse clears the
pre-seeded defaults, so parsing `["--count=1,2,3"]` against `"count="`
with `Value<int>(5).limit(3)` yields [1,2,3].  The code contradicts it:
seeding the default at registration goes through `add_value`, which sets
`use_m`, so the `if (!use()) value_m.clear()` branch of
`OptionHasValue::add_value` never fires during the parse; the parse
appends to the default and the third value overwrites the full last slot,
yielding [5,1,3] with `used() == true`. -/
theorem claim_C1_defaults_retained :
    cfgCount = Except.ok mapCount
  ∧ (mapCount.long_options.all (fun o => OptionWrapper.toBool o)) = true
  ∧ ((fuelRes (CommandLineOption.parse ⟨mapCount, 25, 2⟩ 10 ["--count=1,2,3"])).bind
       fun m' => (m'.luse "count").bind
       fun o => OptionWrapper.asContainer o VType.int)
      = Except.ok [VVal.i 5, VVal.i 1, VVal.i 3] :=
  ⟨rfl, rfl, rfl⟩

/-- C2: the claim says that after parsing `[]` the option's `used()` check
is `false` while extraction still returns the default.  The second half
holds (extraction yields the default 5), but `used()` is `true`: the
default seeding at registration already set the `use` flag through
`add_value`, and `clone` copies it. -/
theorem claim_C2_used_true_without_supply :
    ((fuelRes (CommandLineOption.parse ⟨mapCount, 25, 2⟩ 10 [])).bind
       fun m' => (m'.luse "count").map
       fun o => OptionWrapper.toBool o)
      = Except.ok true
  ∧ ((fuelRes (CommandLineOption.parse ⟨mapCount, 25, 2⟩ 10 [])).bind
       fun m' => (m'.luse "count").bind
       fun o => OptionWrapper.asScalar o VType.int)
      = Except.ok (VVal.i 5) :=
  ⟨rfl, rfl⟩

/-- C3: the claim says the parse loop always terminates, returning a
result or raising an error.  It does not: on a long option that matches a
registered EQUAL_SIGN-only entity but carries no `'='`, the dispatch sets
`exist = true` and breaks without advancing the cursor, so
`while (p < argc)` repeats the same iteration forever.  In the fueled
model the loop returns `none` (out of fuel) for every fuel value. -/
theorem claim_C3_parse_diverges :
    cfgEq = Except.ok mapEq
  ∧ ∀ fuel : Nat, CommandLineOption.parse ⟨mapEq, 25, 2⟩ fuel ["--eq"] = none := by
  refine ⟨rfl, ?_⟩
  intro fuel
  induction fuel with
  | zero => rfl
  | succ n ih => exact ih

/-- C4: the claim says every structurally unmatched long option fails with
the "unrecognized option" UsageError.  The first two cases hold: an
unmatched name, and `'='` present on an entity without EQUAL_SIGN
capability, both raise it.  The third case ("no NEXT_ARG/NONE fallback",
i.e. an EQUAL_SIGN-only entity reached without `'='`) does not raise it:
the loop hangs without advancing the cursor (every fuel value is
exhausted). -/
theorem claim_C4_long_dispatch :
    CommandLineOption.parse ⟨mapCount, 25, 2⟩ 10 ["--nope"]
      = some (Except.error (Err.runtimeError "--nope に該当するoptionは存在しません"))
  ∧ cfgX = Except.ok mapX
  ∧ CommandLineOption.parse ⟨mapX, 25, 2⟩ 10 ["--x=1"]
      = some (Except.error (Err.runtimeError "--x=1 に該当するoptionは存在しません"))
  ∧ ∀ fuel : Nat, CommandLineOption.parse ⟨mapEq, 25, 2⟩ fuel ["--eq"] ≠ some (Except.error (Err.runtimeError "--eq に該当するoptionは存在しません")) := by
  refine ⟨rfl, rfl, rfl, ?_⟩
  intro fuel
  have h : CommandLineOption.parse ⟨mapEq, 25, 2⟩ fuel ["--eq"] = none := by
    induction fuel with
    | zero => rfl
    | succ n ih => exact ih
  rw [h]
  intro hc
  exact Option.noConfusion hc

/-- Membership implies a found position. -/
theorem findCharL_isSome_of_mem {l : List Char} {c : Char} (h : c ∈ l) :
    (findCharL l c).isSome = true := by
  induction l with
  | nil => cases h
  | cons a r ih =>
    simp only [List.mem_cons] at h
    by_cases hac : a = c
    · simp [findCharL, hac]
    · have hcr : c ∈ r := by
        rcases h with h | h
        · exact absurd h.symm hac
        · exact h
      simp only [findCharL, if_neg hac]
      rcases Option.isSome_iff_exists.mp (ih hcr) with ⟨k, hk⟩
      simp [hk]

/-- A character absent from a list is first found exactly at the appended
position. -/
theorem findCharL_append_self {l : List Char} {c : Char}
    (h : (findCharL l c).isNone = true) :
    findCharL (l ++ [c]) c = some l.length := by
  induction l with
  | nil => simp [findCharL]
  | cons a r ih =>
    by_cases hac : a = c
    · simp [findCharL, hac] at h
    · rcases hfind : findCharL r c with _ | k
      · simp [findCharL, hac, ih (by simp [hfind])]
      · simp [findCharL, hac, hfind] at h

/-- A character that is never found is not found either in the extension by
a different character. -/
theorem findCharL_append_other {l : List Char} {c d : Char}
    (h : (findCharL l c).isNone = true) (hcd : d ≠ c) :
    findCharL (l ++ [d]) c = none := by
  induction l with
  | nil => simp [findCharL, hcd]
  | cons a r ih =>
    by_cases hac : a = c
    · simp [findCharL, hac] at h
    · rcases hfind : findCharL r c with _ | k
      · simp [findCharL, hac, ih (by simp [hfind])]
      · simp [findCharL, hac, hfind] at h

/-- First EQUAL_SIGN-capable long option of a bare name (the entity the
specification says a `'='`-suffixed lookup selects). -/
def findEqCapable (opts : List Opt) (n : String) : Option Opt :=
  opts.find? (fun o =>
    o.base.name = n && check_pattern o.useable_argument OPTION_ARG_PATTERN.EQUAL_SIGN)

/-- First NEXT_ARG-capable long option of a bare name (the entity the
specification says a space-suffixed lookup selects). -/
def findNextCapable (opts : List Opt) (n : String) : Option Opt :=
  opts.find? (fun o =>
    o.base.name = n && check_pattern o.useable_argument OPTION_ARG_PATTERN.NEXT_ARG)

/-- C8 counterexample: the claim says the bare token `"--"` is treated as
an unmatched long-option attempt and hence always fails with a UsageError.
In fact `is_long_option("--")` is false (`*(str+2)` is the terminator), so
`"--"` is classified as a positional token: parsing it against the empty
configuration succeeds and stores it in the leftovers. -/
theorem claim_C8_doubledash_counterexample :
    CommandLineOption.parse ⟨OptionMap.empty, 25, 2⟩ 1 ["--"]
      = some (Except.ok ⟨[], [], [], ["--"]⟩) := rfl

/-- C8 amended: `"--"` matches neither option classifier, so the parser
appends it verbatim to the leftover tokens and moves on — it is not an
end-of-options marker, and not an error either. -/
theorem claim_C8_doubledash_amended :
    is_option "--" = false
  ∧ is_long_option "--" = false
  ∧ ∀ (n : Nat) (st : OptionMap) (rest : List String),
      parseLoop (n + 1) st ("--" :: rest)
        = parseLoop n { st with none_options := st.none_options ++ ["--"] } rest :=
  ⟨rfl, rfl, fun _ _ _ => rfl⟩

/-- C9: the claim says the signature column width and the gap before the
description are configurable (fields `optionCols`, default 25, and
`lengthBetweenOptionAndDescription`, default 2) and that changing them
changes the rendered output.  The renderer never reads those fields: the
width 25 and gap 2 are hard-coded, so any two settings render identically
(first conjunct).  The registration-order iteration, the 25-column layout
and the literal `"  None"` fallback do hold (remaining conjuncts). -/
theorem claim_C9_settings_ignored :
    (∀ (m : OptionMap) (c1 g1 c2 g2 : Nat),
        CommandLineOption.description ⟨m, c1, g1⟩ = CommandLineOption.description ⟨m, c2, g2⟩)
  ∧ cfgAlpha = Except.ok mapAlpha
  ∧ CommandLineOption.description ⟨mapAlpha, 30, 7⟩
      = Except.ok "  --alpha                  Adesc\n"
  ∧ CommandLineOption.description ⟨OptionMap.empty, 25, 2⟩ = Except.ok "  None\n" :=
  ⟨fun _ _ _ _ _ => rfl, rfl, rfl, rfl⟩

/-- C10: `OptionWrapper::as<U>` with a scalar `U` equal to the stored
element type returns `value_m[0]`, the first stored element, whenever the
store is non-empty — in particular when it holds more than one element. -/
theorem claim_C10_scalar_first :
    ∀ (b : OptBase) (d : HasValueData) (v0 v1 : VVal) (vs : List VVal),
      d.arg_pattern ≠ OPTION_ARG_PATTERN.NONE →
      d.value = v0 :: v1 :: vs →
      OptionWrapper.asScalar (Opt.valued b d) d.tag = Except.ok v0 := by
  intro b d v0 v1 vs hpat hval
  have hcheck : check_pattern (Opt.valued b d).useable_argument OPTION_ARG_PATTERN.NONE = false := by
    simp [check_pattern, Opt.useable_argument, hpat]
  simp [OptionWrapper.asScalar, OptionWrapper.cast, hcheck, hval]

/-- Witness for C10 at a concrete entity with two stored elements. -/
theorem claim_C10_scalar_first_witness :
    (⟨Value.empty, [VVal.i 7, VVal.i 9], VType.int, OPTION_ARG_PATTERN.ALL_AVAILABLE⟩ : HasValueData).arg_pattern ≠ OPTION_ARG_PATTERN.NONE
  ∧ OptionWrapper.asScalar
      (Opt.valued ⟨"p", "pd", true, OPTION_PATTERN.OPTION⟩
        ⟨Value.empty, [VVal.i 7, VVal.i 9], VType.int, OPTION_ARG_PATTERN.ALL_AVAILABLE⟩)
      VType.int = Except.ok (VVal.i 7) :=
  ⟨by decide,
   claim_C10_scalar_first ⟨"p", "pd", true, OPTION_PATTERN.OPTION⟩
     ⟨Value.empty, [VVal.i 7, VVal.i 9], VType.int, OPTION_ARG_PATTERN.ALL_AVAILABLE⟩
     (VVal.i 7) (VVal.i 9) [] (by decide) rfl⟩

/-- C7 counterexample: `mapX` holds a NEXT_ARG-capable long option of bare
name `"x"`, yet `luse "x "` (trailing space) fails with a LookupError —
`OptionMap::luse` implements only the `'='` suffix, not the trailing-space
suffix the claim attributes to it. -/
theorem claim_C7_luse_space_counterexample :
    (mapX.long_options.any (fun o =>
        o.base.name == "x" && check_pattern o.useable_argument OPTION_ARG_PATTERN.NEXT_ARG)) = true
  ∧ OptionMap.luse mapX "x " = Except.error (Err.logicError "--x  というlong optionは存在しません") :=
  ⟨rfl, rfl⟩

/-- C7 amended: `use` accepts both the `'='` suffix (selecting the first
EQUAL_SIGN-capable long option of the bare name) and the trailing-space
suffix (selecting the first NEXT_ARG-capable one), failing with a
LookupError when no such entity exists; `luse` supports only the `'='`
suffix, and a trailing-space argument always fails its lookup (registered
names cannot contain a space). -/
theorem claim_C7_lookup_amended :
    ∀ (m : OptionMap) (n : String),
      (findCharL n.toList '=').isNone = true →
      (findCharL n.toList ' ').isNone = true →
      (∀ o ∈ m.long_options, (findCharL o.base.name.toList ' ').isNone = true) →
      ( OptionMap.luse m (n ++ "=") = (match findEqCapable m.long_options n with
          | some o => Except.ok o
          | none => Except.error (Err.logicError ("--" ++ (n ++ "=") ++ " というlong optionは存在しません"))) )
    ∧ ( OptionMap.luse m (n ++ " ")
          = Except.error (Err.logicError ("--" ++ (n ++ " ") ++ " というlong optionは存在しません")) )
    ∧ ( OptionMap.use m (n ++ "=") = (match findEqCapable m.long_options n with
          | some o => Except.ok o
          | none => Except.error (Err.logicError ((n ++ "=") ++ " というoptionおよびlong optionは存在しません"))) )
    ∧ ( OptionMap.use m (n ++ " ") = (match findNextCapable m.long_options n with
          | some o => Except.ok o
          | none => Except.error (Err.logicError ((n ++ " ") ++ " というoptionおよびlong optionは存在しません"))) ) := by
  intro m n heq hsp hnames
  have htl_eq : (n ++ "=").toList = n.toList ++ ['='] := by cases n; rfl
  have htl_sp : (n ++ " ").toList = n.toList ++ [' '] := by cases n; rfl
  have hfind_eq : findCharL ((n ++ "=").toList) '=' = some n.toList.length := by
    rw [htl_eq]; exact findCharL_append_self heq
  have hfind_speq : findCharL ((n ++ " ").toList) '=' = none := by
    rw [htl_sp]; exact findCharL_append_other heq (by decide)
  have hfind_spsp : findCharL ((n ++ " ").toList) ' ' = some n.toList.length := by
    rw [htl_sp]; exact findCharL_append_self hsp
  have hlen_eq : (n ++ "=").toList.length = n.toList.length + 1 := by
    rw [htl_eq]; simp
  have hlen_sp : (n ++ " ").toList.length = n.toList.length + 1 := by
    rw [htl_sp]; simp
  have hsub_eq : substrTo (n ++ "=") (some n.toList.length) = n := by
    show String.mk (((n ++ "=").toList).take n.toList.length) = n
    rw [htl_eq, List.take_left]
    rfl
  have hsub_sp : substrTo (n ++ " ") (some n.toList.length) = n := by
    show String.mk (((n ++ " ").toList).take n.toList.length) = n
    rw [htl_sp, List.take_left]
    rfl
  have hnomatch : ∀ (p : Opt → Bool), (∀ o, p o = true → o.base.name = n ++ " ") →
      m.long_options.find? p = none := by
    intro p hp
    refine List.find?_eq_none.mpr ?_
    intro o ho hpo
    have hname : o.base.name = n ++ " " := hp o hpo
    have hmem : ' ' ∈ o.base.name.toList := by
      rw [hname, htl_sp]
      exact List.mem_append_right _ (by simp)
    have hsome := findCharL_isSome_of_mem hmem
    have hnone := hnames o ho
    rw [Option.isNone_iff_eq_none] at hnone
    rw [hnone] at hsome
    simp at hsome
  refine ⟨?_, ?_, ?_, ?_⟩
  · simp only [OptionMap.luse, hfind_eq, hsub_eq, atLastPos, hlen_eq, findEqCapable]
    simp
  · simp only [OptionMap.luse, hfind_speq, atLastPos, hlen_sp]
    rw [hnomatch (fun o => o.base.name = n ++ " ") (fun o hpo => by simpa using hpo)]
    simp
  · simp only [OptionMap.use, hfind_eq, hsub_eq, atLastPos, hlen_eq, findEqCapable]
    simp
  · simp only [OptionMap.use, hfind_speq, hfind_spsp, hsub_sp, atLastPos, hlen_sp, findNextCapable]
    simp

/-- Witness for C7 at the concrete registry `mapX` and bare name `"x"`. -/
theorem claim_C7_lookup_amended_witness :
    ((findCharL "x".toList '=').isNone = true)
  ∧ ((findCharL "x".toList ' ').isNone = true)
  ∧ (∀ o ∈ mapX.long_options, (findCharL o.base.name.toList ' ').isNone = true)
  ∧ (OptionMap.luse mapX ("x" ++ " ")
       = Except.error (Err.logicError ("--" ++ ("x" ++ " ") ++ " というlong optionは存在しません"))) :=
  ⟨by decide, by decide, by decide,
   (claim_C7_lookup_amended mapX "x" (by decide) (by decide) (by decide)).2.1⟩

/-- Per-entity form of the limit invariant: a valued option stores at most
`limit` values. -/
def optSizeOk : Opt → Bool
  | Opt.plain _ => true
  | Opt.valued _ d => d.value.length ≤ d.value_info.limit

/-- Limit invariant over a whole registry. -/
def SizeInv (m : OptionMap) : Bool :=
  m.options.all optSizeOk && m.long_options.all optSizeOk

/-- `add_value` preserves the per-entity limit bound: it appends below the
limit and overwrites the last slot at the limit. -/
theorem addValueV_size {b b' : OptBase} {d d' : HasValueData} {v : VVal}
    (hlen : d.value.length ≤ d.value_info.limit)
    (h : addValueV b d v = Except.ok (b', d')) :
    d'.value.length ≤ d'.value_info.limit := by
  unfold addValueV at h
  split at h
  · simp at h
  · simp only [Except.ok.injEq, Prod.mk.injEq] at h
    obtain ⟨hb, hd⟩ := h
    subst hd
    by_cases hu : b.use
    · by_cases hlt : d.value.length < d.value_info.limit
      · simp [hu, hlt]
        omega
      · simp [hu, hlt]
        omega
    · by_cases hlt : (0 : Nat) < d.value_info.limit
      · simp [hu, hlt]
        omega
      · simp [hu, hlt]

/-- `add_value_s` preserves the per-entity limit bound. -/
theorem add_value_s_size {o o' : Opt} {s : String}
    (hok : optSizeOk o = true) (h : o.add_value_s s = Except.ok o') :
    optSizeOk o' = true := by
  cases o with
  | plain b => simp [Opt.add_value_s] at h
  | valued b d =>
    simp only [Opt.add_value_s] at h
    split at h
    · simp at h
    · split at h
      · simp at h
      · rename_i v hv b2 d2 hadd
        simp only [Except.ok.injEq] at h
        subst h
        simpa [optSizeOk] using addValueV_size (by simpa [optSizeOk] using hok) hadd

/-- `use(true)` does not touch the stored values. -/
theorem setUse_size {o : Opt} {f : Bool} (hok : optSizeOk o = true) :
    optSizeOk (o.setUse f) = true := by
  cases o with
  | plain b => simp [Opt.setUse, optSizeOk]
  | valued b d => simpa [Opt.setUse, optSizeOk] using hok

/-- Comma-piece insertion preserves the per-entity limit bound. -/
theorem addPieces_size {ps : List String} :
    ∀ {o o' : Opt}, optSizeOk o = true → addPieces o ps = Except.ok o' →
      optSizeOk o' = true := by
  induction ps with
  | nil =>
    intro o o' hok h
    simp only [addPieces, Except.ok.injEq] at h
    subst h; exact hok
  | cons p rest ih =>
    intro o o' hok h
    simp only [addPieces] at h
    split at h
    · simp at h
    · rename_i o2 h2
      exact ih (add_value_s_size hok h2) h

/-- Setting a slot to an invariant-satisfying entity keeps the list-level
invariant. -/
theorem all_set_of_all {l : List Opt} {x : Opt}
    (hall : l.all optSizeOk = true) (hx : optSizeOk x = true) :
    ∀ j, (l.set j x).all optSizeOk = true := by
  induction l with
  | nil => intro j; simp
  | cons a r ih =>
    intro j
    simp only [List.all_cons, Bool.and_eq_true] at hall
    cases j with
    | zero => simp [hx, hall.2]
    | succ k => simp [hall.1, ih hall.2 k]

/-- The short-option scan only produces entities satisfying the limit
bound (from a partition that satisfies it). -/
theorem shortScan_size {tok : String} {next : Option String} :
    ∀ {opts : List Opt} {j : Nat} {o' : Opt} {a : Adv},
      opts.all optSizeOk = true →
      shortScan opts tok next = Except.ok (some (j, o', a)) →
      optSizeOk o' = true := by
  intro opts
  induction opts with
  | nil => intro j o' a _ h; simp [shortScan] at h
  | cons o rest ih =>
    intro j o' a hall h
    simp only [List.all_cons, Bool.and_eq_true] at hall
    simp only [shortScan] at h
    split at h
    · split at h
      · split at h
        · simp at h
        · split at h
          · simp at h
          · split at h
            · simp at h
            · rename_i o2 hadd
              simp only [Except.ok.injEq, Option.some.injEq, Prod.mk.injEq] at h
              obtain ⟨-, ho, -⟩ := h
              subst ho
              exact add_value_s_size hall.1 hadd
      · simp only [Except.ok.injEq, Option.some.injEq, Prod.mk.injEq] at h
        obtain ⟨-, ho, -⟩ := h
        subst ho
        exact setUse_size hall.1
    · split at h
      · simp at h
      · simp at h
      · rename_i j2 o2 a2 hrec
        simp only [Except.ok.injEq, Option.some.injEq, Prod.mk.injEq] at h
        obtain ⟨-, ho, -⟩ := h
        subst ho
        exact ih hall.2 hrec

/-- The long-option scan only produces entities satisfying the limit
bound (from a partition that satisfies it). -/
theorem longScan_size {tok : String} {i : Option Nat} {next : Option String} :
    ∀ {opts : List Opt} {j : Nat} {o' : Opt} {a : Adv},
      opts.all optSizeOk = true →
      longScan opts tok i next = Except.ok (some (j, o', a)) →
      optSizeOk o' = true := by
  intro opts
  induction opts with
  | nil => intro j o' a _ h; simp [longScan] at h
  | cons o rest ih =>
    intro j o' a hall h
    simp only [List.all_cons, Bool.and_eq_true] at hall
    simp only [longScan] at h
    split at h
    · split at h
      · split at h
        · simp at h
        · split at h
          · simp at h
          · rename_i o2 hadd
            simp only [Except.ok.injEq, Option.some.injEq, Prod.mk.injEq] at h
            obtain ⟨-, ho, -⟩ := h
            subst ho
            exact addPieces_size hall.1 hadd
      · split at h
        · split at h
          · split at h
            · simp at h
            · split at h
              · simp at h
              · split at h
                · simp at h
                · rename_i o2 hadd
                  simp only [Except.ok.injEq, Option.some.injEq, Prod.mk.injEq] at h
                  obtain ⟨-, ho, -⟩ := h
                  subst ho
                  exact add_value_s_size hall.1 hadd
          · split at h
            · simp only [Except.ok.injEq, Option.some.injEq, Prod.mk.injEq] at h
              obtain ⟨-, ho, -⟩ := h
              subst ho
              exact setUse_size hall.1
            · simp only [Except.ok.injEq, Option.some.injEq, Prod.mk.injEq] at h
              obtain ⟨-, ho, -⟩ := h
              subst ho
              exact hall.1
        · split at h
          · simp at h
          · simp at h
          · rename_i j2 o2 a2 hrec
            simp only [Except.ok.injEq, Option.some.injEq, Prod.mk.injEq] at h
            obtain ⟨-, ho, -⟩ := h
            subst ho
            exact ih hall.2 hrec
    · split at h
      · simp at h
      · simp at h
      · rename_i j2 o2 a2 hrec
        simp only [Except.ok.injEq, Option.some.injEq, Prod.mk.injEq] at h
        obtain ⟨-, ho, -⟩ := h
        subst ho
        exact ih hall.2 hrec

/-- The parse loop preserves the limit invariant. -/
theorem parseLoop_size :
    ∀ (fuel : Nat) {st : OptionMap} {toks : List String} {m' : OptionMap},
      SizeInv st = true → parseLoop fuel st toks = some (Except.ok m') → SizeInv m' = true := by
  intro fuel
  induction fuel with
  | zero =>
    intro st toks m' hinv h
    cases toks with
    | nil =>
      simp only [parseLoop, Option.some.injEq, Except.ok.injEq] at h
      subst h; exact hinv
    | cons t ts => simp [parseLoop] at h
  | succ n ih =>
    intro st toks m' hinv h
    cases toks with
    | nil =>
      simp only [parseLoop, Option.some.injEq, Except.ok.injEq] at h
      subst h; exact hinv
    | cons tok rest =>
      simp only [SizeInv, Bool.and_eq_true] at hinv
      simp only [parseLoop] at h
      split at h
      · split at h
        · simp at h
        · simp at h
        · rename_i j o' a hscan
          refine ih ?_ h
          simp only [SizeInv, Bool.and_eq_true]
          exact ⟨all_set_of_all hinv.1 (shortScan_size hinv.1 hscan) j, hinv.2⟩
      · split at h
        · split at h
          · simp at h
          · simp at h
          · rename_i j o' a hscan
            refine ih ?_ h
            simp only [SizeInv, Bool.and_eq_true]
            exact ⟨hinv.1, all_set_of_all hinv.2 (longScan_size hinv.2 hscan) j⟩
        · refine ih ?_ h
          simp only [SizeInv, Bool.and_eq_true]
          exact ⟨hinv.1, hinv.2⟩

/-- The clone loop preserves the limit invariant: every cloned entity is a
copy of a member of one of the template's partitions. -/
theorem cloneGo_size {m : OptionMap} (hm : SizeInv m = true) :
    ∀ (entries : List (Bool × Nat)) (acc : OptionMap) {res : OptionMap},
      SizeInv acc = true → cloneGo m entries acc = Except.ok res → SizeInv res = true := by
  intro entries
  induction entries with
  | nil =>
    intro acc res hacc h
    simp only [cloneGo, Except.ok.injEq] at h
    subst h; exact hacc
  | cons e rest ih =>
    intro acc res hacc h
    simp only [cloneGo] at h
    split at h
    · simp at h
    · rename_i p hlock
      have hp : optSizeOk p = true := by
        simp only [SizeInv, Bool.and_eq_true] at hm
        unfold lockRef at hlock
        split at hlock
        · exact List.all_eq_true.mp hm.2 p (List.get?_mem hlock)
        · exact List.all_eq_true.mp hm.1 p (List.get?_mem hlock)
      simp only [SizeInv, Bool.and_eq_true] at hacc
      split at h
      · refine ih _ ?_ h
        simp only [SizeInv, Bool.and_eq_true]
        exact ⟨by simp [hacc.1, hp], hacc.2⟩
      · refine ih _ ?_ h
        simp only [SizeInv, Bool.and_eq_true]
        exact ⟨hacc.1, by simp [hacc.2, hp]⟩

/-- C6: (first conjunct) after any successful parse every valued option
stores at most `limit` values, provided the template registry satisfied
that bound; (second conjunct) `add_value` on an already-used entity whose
store is exactly full overwrites slot `limit - 1` and leaves the count
unchanged, instead of appending. -/
theorem claim_C6_limit_clamp :
    (∀ (m : OptionMap) (cols gap fuel : Nat) (args : List String) (m' : OptionMap),
       SizeInv m = true →
       CommandLineOption.parse ⟨m, cols, gap⟩ fuel args = some (Except.ok m') →
       SizeInv m' = true)
  ∧ (∀ (b : OptBase) (d : HasValueData) (v : VVal) (b' : OptBase) (d' : HasValueData),
       b.use = true →
       d.value.length = d.value_info.limit →
       addValueV b d v = Except.ok (b', d') →
       d'.value = d.value.set (d.value_info.limit - 1) v ∧ d'.value.length = d.value.length) := by
  constructor
  · intro m cols gap fuel args m' hinv h
    simp only [CommandLineOption.parse] at h
    split at h
    · simp at h
    · rename_i st hclone
      exact parseLoop_size fuel (cloneGo_size hinv m.order_options _ (by simp [SizeInv]) hclone) h
  · intro b d v b' d' huse hfull h
    unfold addValueV at h
    split at h
    · simp at h
    · simp only [Except.ok.injEq, Prod.mk.injEq] at h
      obtain ⟨-, hd⟩ := h
      subst hd
      constructor
      · simp [huse, hfull]
      · simp [huse, hfull, List.length_set]

/-- The registry produced by parsing `["--count=1,2,3"]` against
`mapCount`, written out: the parse appended to the seeded default and the
third value overwrote the last slot. -/
def mapCountParsed : OptionMap :=
  ⟨[],
   [Opt.valued ⟨"count", "count desc", true, OPTION_PATTERN.LONG_OPTION⟩
      ⟨⟨[VVal.i 5], none, 3, "arg"⟩, [VVal.i 5, VVal.i 1, VVal.i 3], VType.int,
       OPTION_ARG_PATTERN.EQUAL_SIGN⟩],
   [(true, 0)],
   []⟩

/-- Witness for C6: the round-trip configuration (template and its parse
result both satisfy the bound), plus a concrete full-store `add_value`
overwrite. -/
theorem claim_C6_limit_clamp_witness :
    (SizeInv mapCount = true)
  ∧ (SizeInv mapCountParsed = true)
  ∧ ((⟨"c", "cd", true, OPTION_PATTERN.LONG_OPTION⟩ : OptBase).use = true)
  ∧ ((⟨⟨[], none, 2, "arg"⟩, [VVal.i 1, VVal.i 2], VType.int,
        OPTION_ARG_PATTERN.ALL_AVAILABLE⟩ : HasValueData).value.length
       = (⟨⟨[], none, 2, "arg"⟩, [VVal.i 1, VVal.i 2], VType.int,
            OPTION_ARG_PATTERN.ALL_AVAILABLE⟩ : HasValueData).value_info.limit)
  ∧ ([VVal.i 1, VVal.i 9]
       = [VVal.i 1, VVal.i 2].set (2 - 1) (VVal.i 9)
     ∧ ([VVal.i 1, VVal.i 9] : List VVal).length = ([VVal.i 1, VVal.i 2] : List VVal).length) :=
  ⟨by decide,
   claim_C6_limit_clamp.1 mapCount 25 2 10 ["--count=1,2,3"] mapCountParsed (by decide) rfl,
   by decide, by decide,
   claim_C6_limit_clamp.2 ⟨"c", "cd", true, OPTION_PATTERN.LONG_OPTION⟩
     ⟨⟨[], none, 2, "arg"⟩, [VVal.i 1, VVal.i 2], VType.int, OPTION_ARG_PATTERN.ALL_AVAILABLE⟩
     (VVal.i 9) ⟨"c", "cd", true, OPTION_PATTERN.LONG_OPTION⟩
     ⟨⟨[], none, 2, "arg"⟩, [VVal.i 1, VVal.i 9], VType.int, OPTION_ARG_PATTERN.ALL_AVAILABLE⟩
     rfl rfl rfl⟩

/-!
Heap-level model for the frame property (claim C5).  `shared_ptr<Option>` /
`weak_ptr<Option>` are modelled as indices into an explicit heap of
entities; the registry `OptionMapH` stores indices, so the aliasing between
the partitions and the registration-order references, and the in-place
mutation of entities during a parse, are represented faithfully.  The
pure model above is the resolution of this one (see `parseLoopH_refine`).
-/

/-- Heap of option entities; a `shared_ptr`/`weak_ptr` is an index. -/
abbrev Heap := List Opt

/-- `OptionMap` with pointer (index) identity. -/
structure OptionMapH where
  options : List Nat
  long_options : List Nat
  order_options : List Nat
  none_options : List String

/-- Worker for the heap-level `OptionMap::clone`: each order reference is
locked (read), the entity value is copied to a fresh heap cell, and the new
index is appended to the partition selected by the entity's own
`option_pattern()` and to the new order sequence. -/
def cloneHGo : Heap → List Nat → OptionMapH → Except Err (Heap × OptionMapH)
  | h, [], acc => Except.ok (h, acc)
  | h, i :: rest, acc =>
    match h.get? i with
    | none => Except.error (Err.logicError "expired option reference")
    | some p =>
      match p.base.pattern with
      | OPTION_PATTERN.OPTION =>
        cloneHGo (h ++ [p]) rest
          { acc with options := acc.options ++ [h.length],
                     order_options := acc.order_options ++ [h.length] }
      | OPTION_PATTERN.LONG_OPTION =>
        cloneHGo (h ++ [p]) rest
          { acc with long_options := acc.long_options ++ [h.length],
                     order_options := acc.order_options ++ [h.length] }

/-- Heap-level `OptionMap::clone`. -/
def OptionMapH.clone (h : Heap) (m : OptionMapH) : Except Err (Heap × OptionMapH) :=
  cloneHGo h m.order_options ⟨[], [], [], m.none_options⟩

/-- Heap-level short-option dispatch loop; the result carries the heap
index of the matched entity. -/
def shortScanH (h : Heap) : List Nat → String → Option String →
    Except Err (Option (Nat × Opt × Adv))
  | [], _, _ => Except.ok none
  | i :: rest, tok, next =>
    match h.get? i with
    | none => shortScanH h rest tok next
    | some o =>
      if o.full_option_name = tok then
        if check_pattern o.useable_argument OPTION_ARG_PATTERN.NEXT_ARG then
          match next with
          | none =>
            Except.error (Err.runtimeError ("option " ++ o.full_option_name ++ " には引数を指定する必要があります"))
          | some nx =>
            if is_option nx || is_long_option nx then
              Except.error (Err.runtimeError ("option " ++ o.full_option_name ++ " には引数を指定する必要があります"))
            else
              match o.add_value_s nx with
              | Except.error e => Except.error e
              | Except.ok o' => Except.ok (some (i, o', Adv.two))
        else Except.ok (some (i, o.setUse true, Adv.one))
      else shortScanH h rest tok next

/-- Heap-level long-option dispatch loop; the result carries the heap
index of the matched entity. -/
def longScanH (h : Heap) : List Nat → String → Option Nat → Option String →
    Except Err (Option (Nat × Opt × Adv))
  | [], _, _, _ => Except.ok none
  | ix :: rest, tok, i, next =>
    match h.get? ix with
    | none => longScanH h rest tok i next
    | some o =>
      if o.full_option_name = substrTo tok i then
        if i.isSome && check_pattern o.useable_argument OPTION_ARG_PATTERN.EQUAL_SIGN then
          if atLastPos i tok.toList.length then
            Except.error (Err.runtimeError "=の後には引数を明示的に指定する必要があります")
          else
            match addPieces o (split (tok.toList.drop (idxVal i + 1)) ',') with
            | Except.error e => Except.error e
            | Except.ok o' => Except.ok (some (ix, o', Adv.one))
        else if i.isNone then
          if check_pattern o.useable_argument OPTION_ARG_PATTERN.NEXT_ARG then
            match next with
            | none =>
              Except.error (Err.runtimeError ("option " ++ o.full_option_name ++ " には引数を指定する必要があります"))
            | some nx =>
              if is_option nx || is_long_option nx then
                Except.error (Err.runtimeError ("option " ++ o.full_option_name ++ " には引数を指定する必要があります"))
              else
                match o.add_value_s nx with
                | Except.error e => Except.error e
                | Except.ok o' => Except.ok (some (ix, o', Adv.two))
          else if check_pattern o.useable_argument OPTION_ARG_PATTERN.NONE then
            Except.ok (some (ix, o.setUse true, Adv.one))
          else Except.ok (some (ix, o, Adv.stay))
        else longScanH h rest tok i next
      else longScanH h rest tok i next

/-- Heap-level parse loop: mutation of a matched entity is a write to its
heap cell; the current heap is returned alongside the outcome. -/
def parseLoopH : Nat → Heap → OptionMapH → List String → Heap × Option (Except Err OptionMapH)
  | _, h, m, [] => (h, some (Except.ok m))
  | 0, h, _, _ :: _ => (h, none)
  | Nat.succ n, h, m, tok :: rest =>
    if is_option tok then
      match shortScanH h m.options tok rest.head? with
      | Except.error e => (h, some (Except.error e))
      | Except.ok none =>
        (h, some (Except.error (Err.runtimeError (tok ++ " に該当するoptionは存在しません"))))
      | Except.ok (some (i, o', a)) => parseLoopH n (h.set i o') m (advance a tok rest)
    else if is_long_option tok then
      let ieq := findCharL tok.toList '='
      match longScanH h m.long_options tok ieq rest.head? with
      | Except.error e => (h, some (Except.error e))
      | Except.ok none =>
        (h, some (Except.error (Err.runtimeError (tok ++ " に該当するoptionは存在しません"))))
      | Except.ok (some (i, o', a)) => parseLoopH n (h.set i o') m (advance a tok rest)
    else parseLoopH n h { m with none_options := m.none_options ++ [tok] } rest

/-- Heap-level `CommandLineOption::parse`: clone of the template registry,
then the loop on the clone. -/
def parseH (h : Heap) (c : OptionMapH) (fuel : Nat) (args : List String) :
    Heap × Option (Except Err OptionMapH) :=
  match OptionMapH.clone h c with
  | Except.error e => (h, some (Except.error e))
  | Except.ok (h', st) => parseLoopH fuel h' st args

/-- Entities designated by a list of heap indices (dangling indices
resolve to nothing). -/
def resolveList (h : Heap) (idxs : List Nat) : List Opt := idxs.filterMap h.get?

/-- The pure registry state a heap registry denotes (the order references
are irrelevant to the parse loop and resolve to the empty sequence). -/
def toPureState (h : Heap) (m : OptionMapH) : OptionMap :=
  ⟨resolveList h m.options, resolveList h m.long_options, [], m.none_options⟩

/-- Observable content of a registry: both partitions and the leftovers. -/
def partsOf (m : OptionMap) : List Opt × List Opt × List String :=
  (m.options, m.long_options, m.none_options)

/-- Observable content of a heap-level parse outcome. -/
def resolveRes (hr : Heap × Option (Except Err OptionMapH)) :
    Option (Except Err (List Opt × List Opt × List String)) :=
  hr.2.map (fun e => e.map (fun m =>
    (resolveList hr.1 m.options, resolveList hr.1 m.long_options, m.none_options)))

/-- Observable content of a pure parse outcome. -/
def pureRes (r : Option (Except Err OptionMap)) :
    Option (Except Err (List Opt × List Opt × List String)) :=
  r.map (fun e => e.map partsOf)

/-- Partition of locked entities by their own pattern (value level): what
the clone produces, seen through resolution. -/
def dispatchParts : List Opt → List Opt × List Opt
  | [] => ([], [])
  | p :: rest =>
    let pr := dispatchParts rest
    match p.base.pattern with
    | OPTION_PATTERN.OPTION => (p :: pr.1, pr.2)
    | OPTION_PATTERN.LONG_OPTION => (pr.1, p :: pr.2)

/-- Heap indices the clone assigns to the partitions, starting at `base`. -/
def dispatchIdx : List Opt → Nat → List Nat × List Nat
  | [], _ => ([], [])
  | p :: rest, base =>
    let pr := dispatchIdx rest (base + 1)
    match p.base.pattern with
    | OPTION_PATTERN.OPTION => (base :: pr.1, pr.2)
    | OPTION_PATTERN.LONG_OPTION => (pr.1, base :: pr.2)

theorem resolveList_nil (h : Heap) : resolveList h [] = [] := rfl

theorem resolveList_cons_some {h : Heap} {i : Nat} {o : Opt} {rest : List Nat}
    (hg : h.get? i = some o) :
    resolveList h (i :: rest) = o :: resolveList h rest := by
  rw [List.get?_eq_getElem?] at hg
  simp [resolveList, List.filterMap_cons, hg]

theorem resolveList_cons_none {h : Heap} {i : Nat} {rest : List Nat}
    (hg : h.get? i = none) :
    resolveList h (i :: rest) = resolveList h rest := by
  rw [List.get?_eq_getElem?] at hg
  simp [resolveList, List.filterMap_cons, hg]

/-- Writing at an index outside a prefix leaves the prefix unchanged. -/
theorem take_set_of_le {l : List Opt} {x : Opt} :
    ∀ {i N : Nat}, N ≤ i → (l.set i x).take N = l.take N := by
  induction l with
  | nil => intro i N _; simp
  | cons a r ih =>
    intro i N hNi
    cases i with
    | zero =>
      cases N with
      | zero => simp
      | succ n => omega
    | succ k =>
      cases N with
      | zero => simp
      | succ n =>
        have hr := @ih k n (by omega)
        simp [List.set, hr]

/-- Writing at an index not designated by the list leaves its resolution
unchanged. -/
theorem resolveList_set_not_mem {h : Heap} {x : Opt} {i : Nat} :
    ∀ {js : List Nat}, i ∉ js → resolveList (h.set i x) js = resolveList h js := by
  intro js
  induction js with
  | nil => intro _; rfl
  | cons k rest ih =>
    intro hni
    have hki : i ≠ k := fun hh => hni (hh ▸ List.mem_cons_self k rest)
    have hrest : i ∉ rest := fun hh => hni (List.mem_cons_of_mem k hh)
    have hg : (h.set i x).get? k = h.get? k := List.get?_set_ne x h hki
    rcases hk : h.get? k with _ | o
    · rw [resolveList_cons_none (hg.trans hk), resolveList_cons_none hk, ih hrest]
    · rw [resolveList_cons_some (hg.trans hk), resolveList_cons_some hk, ih hrest]

/-- The short scan only returns indices taken from the scanned list. -/
theorem shortScanH_mem {h : Heap} {tok : String} {next : Option String} :
    ∀ {idxs : List Nat} {i : Nat} {o' : Opt} {a : Adv},
      shortScanH h idxs tok next = Except.ok (some (i, o', a)) → i ∈ idxs := by
  intro idxs
  induction idxs with
  | nil => intro i o' a hs; simp [shortScanH] at hs
  | cons k rest ih =>
    intro i o' a hs
    simp only [shortScanH] at hs
    split at hs
    · exact List.mem_cons_of_mem k (ih hs)
    · split at hs
      · split at hs
        · split at hs
          · simp at hs
          · split at hs
            · simp at hs
            · split at hs
              · simp at hs
              · simp only [Except.ok.injEq, Option.some.injEq, Prod.mk.injEq] at hs
                obtain ⟨hi, -, -⟩ := hs
                subst hi
                exact List.mem_cons_self k rest
        · simp only [Except.ok.injEq, Option.some.injEq, Prod.mk.injEq] at hs
          obtain ⟨hi, -, -⟩ := hs
          subst hi
          exact List.mem_cons_self k rest
      · exact List.mem_cons_of_mem k (ih hs)

/-- The long scan only returns indices taken from the scanned list. -/
theorem longScanH_mem {h : Heap} {tok : String} {ieq : Option Nat} {next : Option String} :
    ∀ {idxs : List Nat} {i : Nat} {o' : Opt} {a : Adv},
      longScanH h idxs tok ieq next = Except.ok (some (i, o', a)) → i ∈ idxs := by
  intro idxs
  induction idxs with
  | nil => intro i o' a hs; simp [longScanH] at hs
  | cons k rest ih =>
    intro i o' a hs
    simp only [longScanH] at hs
    split at hs
    · exact List.mem_cons_of_mem k (ih hs)
    · split at hs
      · split at hs
        · split at hs
          · simp at hs
          · split at hs
            · simp at hs
            · simp only [Except.ok.injEq, Option.some.injEq, Prod.mk.injEq] at hs
              obtain ⟨hi, -, -⟩ := hs
              subst hi
              exact List.mem_cons_self k rest
        · split at hs
          · split at hs
            · split at hs
              · simp at hs
              · split at hs
                · simp at hs
                · split at hs
                  · simp at hs
                  · simp only [Except.ok.injEq, Option.some.injEq, Prod.mk.injEq] at hs
                    obtain ⟨hi, -, -⟩ := hs
                    subst hi
                    exact List.mem_cons_self k rest
            · split at hs
              · simp only [Except.ok.injEq, Option.some.injEq, Prod.mk.injEq] at hs
                obtain ⟨hi, -, -⟩ := hs
                subst hi
                exact List.mem_cons_self k rest
              · simp only [Except.ok.injEq, Option.some.injEq, Prod.mk.injEq] at hs
                obtain ⟨hi, -, -⟩ := hs
                subst hi
                exact List.mem_cons_self k rest
          · exact List.mem_cons_of_mem k (ih hs)
      · exact List.mem_cons_of_mem k (ih hs)

/-- The parse loop never writes below any bound that lies under every
partition index: the heap prefix below the clone's cells is preserved. -/
theorem parseLoopH_frame_low {N : Nat} :
    ∀ (fuel : Nat) (h : Heap) (m : OptionMapH) (toks : List String),
      (∀ i ∈ m.options ++ m.long_options, N ≤ i) →
      (parseLoopH fuel h m toks).1.take N = h.take N := by
  intro fuel
  induction fuel with
  | zero =>
    intro h m toks hb
    cases toks with
    | nil => rfl
    | cons t ts => rfl
  | succ n ih =>
    intro h m toks hb
    cases toks with
    | nil => rfl
    | cons tok rest =>
      simp only [parseLoopH]
      split
      · split
        · rfl
        · rfl
        · rename_i i o' a hscan
          rw [ih _ m _ hb]
          exact take_set_of_le (hb i (List.mem_append_left _ (shortScanH_mem hscan)))
      · split
        · split
          · rfl
          · rfl
          · rename_i i o' a hscan
            rw [ih _ m _ hb]
            exact take_set_of_le (hb i (List.mem_append_right _ (longScanH_mem hscan)))
        · exact ih _ _ _ hb

/-- Correspondence of the heap-level and pure short-option scans: on a
duplicate-free index list both produce the same outcome, and a match
additionally admits the slot-update equation connecting a heap write at
the returned index with a positional update of the resolved partition. -/
theorem shortScanH_corr {h : Heap} {tok : String} {next : Option String} :
    ∀ {idxs : List Nat}, idxs.Nodup →
      ( (∃ e, shortScanH h idxs tok next = Except.error e
            ∧ shortScan (resolveList h idxs) tok next = Except.error e)
      ∨ (shortScanH h idxs tok next = Except.ok none
            ∧ shortScan (resolveList h idxs) tok next = Except.ok none)
      ∨ (∃ i j o' a, shortScanH h idxs tok next = Except.ok (some (i, o', a))
            ∧ shortScan (resolveList h idxs) tok next = Except.ok (some (j, o', a))
            ∧ i ∈ idxs
            ∧ ∀ (x : Opt), resolveList (h.set i x) idxs = (resolveList h idxs).set j x) ) := by
  intro idxs
  induction idxs with
  | nil =>
    intro _
    right; left
    exact ⟨rfl, rfl⟩
  | cons k rest ih =>
    intro hnd
    have hkrest : k ∉ rest := (List.nodup_cons.mp hnd).1
    have hndrest : rest.Nodup := (List.nodup_cons.mp hnd).2
    rcases hget : h.get? k with _ | o
    · -- dangling reference: both sides skip the entry
      have hres : resolveList h (k :: rest) = resolveList h rest := resolveList_cons_none hget
      have hH : shortScanH h (k :: rest) tok next = shortScanH h rest tok next := by
        simp only [shortScanH, hget]
      rcases ih hndrest with ⟨e, h1, h2⟩ | ⟨h1, h2⟩ | ⟨i, j, o', a, h1, h2, hmem, hupd⟩
      · exact Or.inl ⟨e, hH.trans h1, hres ▸ h2⟩
      · exact Or.inr (Or.inl ⟨hH.trans h1, hres ▸ h2⟩)
      · refine Or.inr (Or.inr ⟨i, j, o', a, hH.trans h1, hres ▸ h2, List.mem_cons_of_mem k hmem, ?_⟩)
        intro x
        have hik : i ≠ k := fun hh => hkrest (hh ▸ hmem)
        have hgk : (h.set i x).get? k = h.get? k := List.get?_set_ne x h hik
        rw [resolveList_cons_none (hgk.trans hget), hres, hupd x]
    · have hklt : k < h.length := by
        rcases List.get?_eq_some.mp hget with ⟨hlt, -⟩
        exact hlt
      have hres : resolveList h (k :: rest) = o :: resolveList h rest := resolveList_cons_some hget
      rw [hres]
      simp only [shortScanH, hget, shortScan]
      by_cases hname : o.full_option_name = tok
      · rw [if_pos hname, if_pos hname]
        by_cases hcap : check_pattern o.useable_argument OPTION_ARG_PATTERN.NEXT_ARG = true
        · rw [if_pos hcap, if_pos hcap]
          rcases next with _ | nx
          · exact Or.inl ⟨_, rfl, rfl⟩
          · dsimp only
            by_cases hopt : (is_option nx || is_long_option nx) = true
            · rw [if_pos hopt, if_pos hopt]
              exact Or.inl ⟨_, rfl, rfl⟩
            · rw [if_neg hopt, if_neg hopt]
              rcases hadd : o.add_value_s nx with e | o2
              · exact Or.inl ⟨e, rfl, rfl⟩
              · refine Or.inr (Or.inr ⟨k, 0, o2, Adv.two, rfl, rfl, List.mem_cons_self k rest, ?_⟩)
                intro x
                have hgk : (h.set k x).get? k = some x := List.get?_set_eq_of_lt x hklt
                rw [resolveList_cons_some hgk, resolveList_set_not_mem hkrest]
                rfl
        · rw [if_neg hcap, if_neg hcap]
          refine Or.inr (Or.inr ⟨k, 0, o.setUse true, Adv.one, rfl, rfl, List.mem_cons_self k rest, ?_⟩)
          intro x
          have hgk : (h.set k x).get? k = some x := List.get?_set_eq_of_lt x hklt
          rw [resolveList_cons_some hgk, resolveList_set_not_mem hkrest]
          rfl
      · rw [if_neg hname, if_neg hname]
        rcases ih hndrest with ⟨e, h1, h2⟩ | ⟨h1, h2⟩ | ⟨i, j, o', a, h1, h2, hmem, hupd⟩
        · rw [h1, h2]
          exact Or.inl ⟨e, rfl, rfl⟩
        · rw [h1, h2]
          exact Or.inr (Or.inl ⟨rfl, rfl⟩)
        · rw [h1, h2]
          refine Or.inr (Or.inr ⟨i, j + 1, o', a, rfl, rfl, List.mem_cons_of_mem k hmem, ?_⟩)
          intro x
          have hik : i ≠ k := fun hh => hkrest (hh ▸ hmem)
          have hgk : (h.set i x).get? k = h.get? k := List.get?_set_ne x h hik
          rw [resolveList_cons_some (hgk.trans hget), hupd x]
          rfl

/-- Correspondence of the heap-level and pure long-option scans (the
analogue of `shortScanH_corr`). -/
theorem longScanH_corr {h : Heap} {tok : String} {ieq : Option Nat} {next : Option String} :
    ∀ {idxs : List Nat}, idxs.Nodup →
      ( (∃ e, longScanH h idxs tok ieq next = Except.error e
            ∧ longScan (resolveList h idxs) tok ieq next = Except.error e)
      ∨ (longScanH h idxs tok ieq next = Except.ok none
            ∧ longScan (resolveList h idxs) tok ieq next = Except.ok none)
      ∨ (∃ i j o' a, longScanH h idxs tok ieq next = Except.ok (some (i, o', a))
            ∧ longScan (resolveList h idxs) tok ieq next = Except.ok (some (j, o', a))
            ∧ i ∈ idxs
            ∧ ∀ (x : Opt), resolveList (h.set i x) idxs = (resolveList h idxs).set j x) ) := by
  intro idxs
  induction idxs with
  | nil =>
    intro _
    right; left
    exact ⟨rfl, rfl⟩
  | cons k rest ih =>
    intro hnd
    have hkrest : k ∉ rest := (List.nodup_cons.mp hnd).1
    have hndrest : rest.Nodup := (List.nodup_cons.mp hnd).2
    rcases hget : h.get? k with _ | o
    · have hres : resolveList h (k :: rest) = resolveList h rest := resolveList_cons_none hget
      have hH : longScanH h (k :: rest) tok ieq next = longScanH h rest tok ieq next := by
        simp only [longScanH, hget]
      rcases ih hndrest with ⟨e, h1, h2⟩ | ⟨h1, h2⟩ | ⟨i, j, o', a, h1, h2, hmem, hupd⟩
      · exact Or.inl ⟨e, hH.trans h1, hres ▸ h2⟩
      · exact Or.inr (Or.inl ⟨hH.trans h1, hres ▸ h2⟩)
      · refine Or.inr (Or.inr ⟨i, j, o', a, hH.trans h1, hres ▸ h2, List.mem_cons_of_mem k hmem, ?_⟩)
        intro x
        have hik : i ≠ k := fun hh => hkrest (hh ▸ hmem)
        have hgk : (h.set i x).get? k = h.get? k := List.get?_set_ne x h hik
        rw [resolveList_cons_none (hgk.trans hget), hres, hupd x]
    · have hklt : k < h.length := by
        rcases List.get?_eq_some.mp hget with ⟨hlt, -⟩
        exact hlt
      have hres : resolveList h (k :: rest) = o :: resolveList h rest := resolveList_cons_some hget
      have hselfupd : ∀ (x : Opt),
          resolveList (h.set k x) (k :: rest) = (o :: resolveList h rest).set 0 x := by
        intro x
        have hgk : (h.set k x).get? k = some x := List.get?_set_eq_of_lt x hklt
        rw [resolveList_cons_some hgk, resolveList_set_not_mem hkrest]
        rfl
      have hrecupd : ∀ {i j : Nat}, i ∈ rest →
          (∀ (x : Opt), resolveList (h.set i x) rest = (resolveList h rest).set j x) →
          ∀ (x : Opt), resolveList (h.set i x) (k :: rest) = (o :: resolveList h rest).set (j + 1) x := by
        intro i j hmem hupd x
        have hik : i ≠ k := fun hh => hkrest (hh ▸ hmem)
        have hgk : (h.set i x).get? k = h.get? k := List.get?_set_ne x h hik
        rw [resolveList_cons_some (hgk.trans hget), hupd x]
        rfl
      rw [hres]
      simp only [longScanH, hget, longScan]
      by_cases hname : o.full_option_name = substrTo tok ieq
      · rw [if_pos hname, if_pos hname]
        by_cases hc1 : (ieq.isSome && check_pattern o.useable_argument OPTION_ARG_PATTERN.EQUAL_SIGN) = true
        · rw [if_pos hc1, if_pos hc1]
          by_cases hlast : atLastPos ieq tok.toList.length = true
          · rw [if_pos hlast, if_pos hlast]
            exact Or.inl ⟨_, rfl, rfl⟩
          · rw [if_neg hlast, if_neg hlast]
            rcases haddp : addPieces o (split (tok.toList.drop (idxVal ieq + 1)) ',') with e | o2
            · exact Or.inl ⟨e, rfl, rfl⟩
            · exact Or.inr (Or.inr ⟨k, 0, o2, Adv.one, rfl, rfl, List.mem_cons_self k rest,
                hselfupd⟩)
        · rw [if_neg hc1, if_neg hc1]
          by_cases hi : ieq.isNone = true
          · rw [if_pos hi, if_pos hi]
            by_cases hcap : check_pattern o.useable_argument OPTION_ARG_PATTERN.NEXT_ARG = true
            · rw [if_pos hcap, if_pos hcap]
              rcases next with _ | nx
              · exact Or.inl ⟨_, rfl, rfl⟩
              · dsimp only
                by_cases hopt : (is_option nx || is_long_option nx) = true
                · rw [if_pos hopt, if_pos hopt]
                  exact Or.inl ⟨_, rfl, rfl⟩
                · rw [if_neg hopt, if_neg hopt]
                  rcases hadd : o.add_value_s nx with e | o2
                  · exact Or.inl ⟨e, rfl, rfl⟩
                  · exact Or.inr (Or.inr ⟨k, 0, o2, Adv.two, rfl, rfl,
                      List.mem_cons_self k rest, hselfupd⟩)
            · rw [if_neg hcap, if_neg hcap]
              by_cases hnone : check_pattern o.useable_argument OPTION_ARG_PATTERN.NONE = true
              · rw [if_pos hnone, if_pos hnone]
                exact Or.inr (Or.inr ⟨k, 0, o.setUse true, Adv.one, rfl, rfl,
                  List.mem_cons_self k rest, hselfupd⟩)
              · rw [if_neg hnone, if_neg hnone]
                exact Or.inr (Or.inr ⟨k, 0, o, Adv.stay, rfl, rfl,
                  List.mem_cons_self k rest, hselfupd⟩)
          · rw [if_neg hi, if_neg hi]
            rcases ih hndrest with ⟨e, h1, h2⟩ | ⟨h1, h2⟩ | ⟨i, j, o', a, h1, h2, hmem, hupd⟩
            · rw [h1, h2]
              exact Or.inl ⟨e, rfl, rfl⟩
            · rw [h1, h2]
              exact Or.inr (Or.inl ⟨rfl, rfl⟩)
            · rw [h1, h2]
              exact Or.inr (Or.inr ⟨i, j + 1, o', a, rfl, rfl, List.mem_cons_of_mem k hmem,
                hrecupd hmem hupd⟩)
      · rw [if_neg hname, if_neg hname]
        rcases ih hndrest with ⟨e, h1, h2⟩ | ⟨h1, h2⟩ | ⟨i, j, o', a, h1, h2, hmem, hupd⟩
        · rw [h1, h2]
          exact Or.inl ⟨e, rfl, rfl⟩
        · rw [h1, h2]
          exact Or.inr (Or.inl ⟨rfl, rfl⟩)
        · rw [h1, h2]
          exact Or.inr (Or.inr ⟨i, j + 1, o', a, rfl, rfl, List.mem_cons_of_mem k hmem,
            hrecupd hmem hupd⟩)

/-- Refinement of the heap-level parse loop by the pure one: on a registry
whose partition indices are duplicate-free, both produce the same
observable outcome. -/
theorem parseLoopH_refine :
    ∀ (fuel : Nat) (h : Heap) (m : OptionMapH) (toks : List String),
      (m.options ++ m.long_options).Nodup →
      resolveRes (parseLoopH fuel h m toks) = pureRes (parseLoop fuel (toPureState h m) toks) := by
  intro fuel
  induction fuel with
  | zero =>
    intro h m toks hnd
    cases toks with
    | nil => rfl
    | cons t ts => rfl
  | succ n ih =>
    intro h m toks hnd
    rcases List.nodup_append.mp hnd with ⟨hndo, hndl, hdisj⟩
    cases toks with
    | nil => rfl
    | cons tok rest =>
      simp only [parseLoopH, parseLoop]
      by_cases hopt : is_option tok = true
      · rw [if_pos hopt, if_pos hopt]
        rcases @shortScanH_corr h tok rest.head? m.options hndo with
          ⟨e, h1, h2⟩ | ⟨h1, h2⟩ | ⟨i, j, o', a, h1, h2, hmem, hupd⟩
        · rw [h1]
          have h2' : shortScan (toPureState h m).options tok rest.head? = Except.error e := h2
          rw [h2']
          rfl
        · rw [h1]
          have h2' : shortScan (toPureState h m).options tok rest.head? = Except.ok none := h2
          rw [h2']
          rfl
        · rw [h1]
          have h2' : shortScan (toPureState h m).options tok rest.head?
              = Except.ok (some (j, o', a)) := h2
          rw [h2']
          have hst : toPureState (h.set i o') m
              = ⟨(resolveList h m.options).set j o', resolveList h m.long_options, [],
                 m.none_options⟩ := by
            simp only [toPureState]
            rw [hupd o', resolveList_set_not_mem (hdisj hmem)]
          rw [ih (h.set i o') m (advance a tok rest) hnd, hst]
          rfl
      · rw [if_neg hopt, if_neg hopt]
        by_cases hlong : is_long_option tok = true
        · rw [if_pos hlong, if_pos hlong]
          rcases @longScanH_corr h tok (findCharL tok.toList '=') rest.head? m.long_options hndl with
            ⟨e, h1, h2⟩ | ⟨h1, h2⟩ | ⟨i, j, o', a, h1, h2, hmem, hupd⟩
          · rw [h1]
            have h2' : longScan (toPureState h m).long_options tok (findCharL tok.toList '=')
                rest.head? = Except.error e := h2
            rw [h2']
            rfl
          · rw [h1]
            have h2' : longScan (toPureState h m).long_options tok (findCharL tok.toList '=')
                rest.head? = Except.ok none := h2
            rw [h2']
            rfl
          · rw [h1]
            have h2' : longScan (toPureState h m).long_options tok (findCharL tok.toList '=')
                rest.head? = Except.ok (some (j, o', a)) := h2
            rw [h2']
            have hst : toPureState (h.set i o') m
                = ⟨resolveList h m.options, (resolveList h m.long_options).set j o', [],
                   m.none_options⟩ := by
              simp only [toPureState]
              rw [hupd o', resolveList_set_not_mem (fun hh => hdisj hh hmem)]
            rw [ih (h.set i o') m (advance a tok rest) hnd, hst]
            rfl
        · rw [if_neg hlong, if_neg hlong]
          exact ih h { m with none_options := m.none_options ++ [tok] } rest hnd

/-- Appending cells does not change reads below the original length. -/
theorem resolveList_append_of_lt {h : Heap} {p : List Opt} :
    ∀ {entries : List Nat}, (∀ i ∈ entries, i < h.length) →
      resolveList (h ++ p) entries = resolveList h entries := by
  intro entries
  induction entries with
  | nil => intro _; rfl
  | cons k rest ih =>
    intro hb
    have hk : k < h.length := hb k (List.mem_cons_self k rest)
    have hg : (h ++ p).get? k = h.get? k := by
      rw [List.get?_eq_getElem?, List.get?_eq_getElem?]
      exact List.getElem?_append_left hk
    have hrest := ih (fun i hi => hb i (List.mem_cons_of_mem k hi))
    rcases hk2 : h.get? k with _ | o
    · rw [resolveList_cons_none (hg.trans hk2), resolveList_cons_none hk2, hrest]
    · rw [resolveList_cons_some (hg.trans hk2), resolveList_cons_some hk2, hrest]

/-- Reads agreeing on the designated indices give the same resolution. -/
theorem resolveList_congr {h1 h2 : Heap} :
    ∀ {entries : List Nat}, (∀ i ∈ entries, h1.get? i = h2.get? i) →
      resolveList h1 entries = resolveList h2 entries := by
  intro entries
  induction entries with
  | nil => intro _; rfl
  | cons k rest ih =>
    intro hc
    have hk := hc k (List.mem_cons_self k rest)
    have hrest := ih (fun i hi => hc i (List.mem_cons_of_mem k hi))
    rcases hk2 : h2.get? k with _ | o
    · rw [resolveList_cons_none (hk.trans hk2), resolveList_cons_none hk2, hrest]
    · rw [resolveList_cons_some (hk.trans hk2), resolveList_cons_some hk2, hrest]

/-- Exact shape of the clone loop on a template whose order references are
all alive: the locked entities are appended to the heap in order, and the
partitions receive exactly the indices `dispatchIdx` describes. -/
theorem cloneHGo_exact {B : Nat} :
    ∀ (entries : List Nat) (h : Heap) (acc : OptionMapH),
      (∀ i ∈ entries, i < B) → B ≤ h.length →
      ∃ ord, cloneHGo h entries acc
        = Except.ok (h ++ resolveList h entries,
            ⟨acc.options ++ (dispatchIdx (resolveList h entries) h.length).1,
             acc.long_options ++ (dispatchIdx (resolveList h entries) h.length).2,
             ord,
             acc.none_options⟩) := by
  intro entries
  induction entries with
  | nil =>
    intro h acc _ _
    refine ⟨acc.order_options, ?_⟩
    simp [cloneHGo, resolveList_nil, dispatchIdx]
  | cons k rest ih =>
    intro h acc hb hBh
    have hk : k < h.length := lt_of_lt_of_le (hb k (List.mem_cons_self k rest)) hBh
    rcases hg : h.get? k with _ | p
    · rw [List.get?_eq_none] at hg
      omega
    · have hbrest : ∀ i ∈ rest, i < B := fun i hi => hb i (List.mem_cons_of_mem k hi)
      have hBh1 : B ≤ (h ++ [p]).length := by
        rw [List.length_append]
        omega
      have hres : resolveList h (k :: rest) = p :: resolveList h rest :=
        resolveList_cons_some hg
      have hresrest : resolveList (h ++ [p]) rest = resolveList h rest :=
        resolveList_append_of_lt (fun i hi => lt_of_lt_of_le (hbrest i hi) hBh)
      have hlen1 : (h ++ [p]).length = h.length + 1 := by simp
      cases hpat : p.base.pattern with
      | OPTION =>
        obtain ⟨ord, hrec⟩ := ih (h ++ [p])
          { acc with options := acc.options ++ [h.length],
                     order_options := acc.order_options ++ [h.length] } hbrest hBh1
        refine ⟨ord, ?_⟩
        have hstep : cloneHGo h (k :: rest) acc
            = cloneHGo (h ++ [p]) rest
                { acc with options := acc.options ++ [h.length],
                           order_options := acc.order_options ++ [h.length] } := by
          simp only [cloneHGo, hg, hpat]
        rw [hstep, hrec, hresrest, hres, hlen1]
        simp only [dispatchIdx, hpat]
        simp [List.append_assoc]
      | LONG_OPTION =>
        obtain ⟨ord, hrec⟩ := ih (h ++ [p])
          { acc with long_options := acc.long_options ++ [h.length],
                     order_options := acc.order_options ++ [h.length] } hbrest hBh1
        refine ⟨ord, ?_⟩
        have hstep : cloneHGo h (k :: rest) acc
            = cloneHGo (h ++ [p]) rest
                { acc with long_options := acc.long_options ++ [h.length],
                           order_options := acc.order_options ++ [h.length] } := by
          simp only [cloneHGo, hg, hpat]
        rw [hstep, hrec, hresrest, hres, hlen1]
        simp only [dispatchIdx, hpat]
        simp [List.append_assoc]

/-- Clone indices lie in the freshly appended region. -/
theorem dispatchIdx_bounds :
    ∀ (l : List Opt) (base : Nat) (i : Nat),
      i ∈ (dispatchIdx l base).1 ++ (dispatchIdx l base).2 →
      base ≤ i ∧ i < base + l.length := by
  intro l
  induction l with
  | nil => intro base i hi; simp [dispatchIdx] at hi
  | cons p rest ih =>
    intro base i hi
    cases hpat : p.base.pattern with
    | OPTION =>
      simp only [dispatchIdx, hpat, List.cons_append, List.mem_cons] at hi
      rcases hi with hi | hi
      · subst hi
        simp
      · have := ih (base + 1) i hi
        simp only [List.length_cons]
        omega
    | LONG_OPTION =>
      simp only [dispatchIdx, hpat, List.mem_append, List.mem_cons] at hi
      have hi' : i = base ∨ i ∈ (dispatchIdx rest (base + 1)).1 ++ (dispatchIdx rest (base + 1)).2 := by
        rcases hi with hi | hi | hi
        · exact Or.inr (List.mem_append_left _ hi)
        · exact Or.inl hi
        · exact Or.inr (List.mem_append_right _ hi)
      rcases hi' with hi' | hi'
      · subst hi'
        simp
      · have := ih (base + 1) i hi'
        simp only [List.length_cons]
        omega

/-- Clone indices are pairwise distinct (across both partitions). -/
theorem dispatchIdx_nodup :
    ∀ (l : List Opt) (base : Nat),
      ((dispatchIdx l base).1 ++ (dispatchIdx l base).2).Nodup := by
  intro l
  induction l with
  | nil => intro base; simp [dispatchIdx]
  | cons p rest ih =>
    intro base
    have hnotmem : base ∉ (dispatchIdx rest (base + 1)).1 ++ (dispatchIdx rest (base + 1)).2 := by
      intro hmem
      have := dispatchIdx_bounds rest (base + 1) base hmem
      omega
    cases hpat : p.base.pattern with
    | OPTION =>
      simp only [dispatchIdx, hpat, List.cons_append]
      exact List.nodup_cons.mpr ⟨hnotmem, ih (base + 1)⟩
    | LONG_OPTION =>
      simp only [dispatchIdx, hpat]
      have hperm : ((dispatchIdx rest (base + 1)).1 ++ base :: (dispatchIdx rest (base + 1)).2).Perm
          (base :: ((dispatchIdx rest (base + 1)).1 ++ (dispatchIdx rest (base + 1)).2)) :=
        List.perm_middle
      exact (List.Perm.nodup_iff hperm).mpr (List.nodup_cons.mpr ⟨hnotmem, ih (base + 1)⟩)

/-- Resolution of the clone's partition indices in a heap that carries the
locked entities starting at `base`: exactly the pattern-partition of the
locked list. -/
theorem dispatch_resolve :
    ∀ (l : List Opt) (H : Heap) (base : Nat),
      (∀ k, k < l.length → H.get? (base + k) = l.get? k) →
      resolveList H (dispatchIdx l base).1 = (dispatchParts l).1
    ∧ resolveList H (dispatchIdx l base).2 = (dispatchParts l).2 := by
  intro l
  induction l with
  | nil => intro H base _; exact ⟨rfl, rfl⟩
  | cons p rest ih =>
    intro H base hreads
    have hp : H.get? base = some p := by
      have := hreads 0 (by simp)
      simpa using this
    have hrest : ∀ k, k < rest.length → H.get? (base + 1 + k) = rest.get? k := by
      intro k hk
      have := hreads (k + 1) (by simp; omega)
      rw [show base + (k + 1) = base + 1 + k by omega] at this
      simpa using this
    have := ih H (base + 1) hrest
    cases hpat : p.base.pattern with
    | OPTION =>
      simp only [dispatchIdx, dispatchParts, hpat]
      exact ⟨by rw [resolveList_cons_some hp, this.1], this.2⟩
    | LONG_OPTION =>
      simp only [dispatchIdx, dispatchParts, hpat]
      exact ⟨this.1, by rw [resolveList_cons_some hp, this.2]⟩

/-- Refinement of the full heap-level parse (clone + loop) by the pure
parse loop started from the pattern-partition of the locked template
entities. -/
theorem parseH_refine (h : Heap) (cfg : OptionMapH) (fuel : Nat) (args : List String)
    (hwf : ∀ i ∈ cfg.order_options, i < h.length) :
    resolveRes (parseH h cfg fuel args)
      = pureRes (parseLoop fuel
          ⟨(dispatchParts (resolveList h cfg.order_options)).1,
           (dispatchParts (resolveList h cfg.order_options)).2, [], cfg.none_options⟩ args) := by
  obtain ⟨ord, hclone⟩ :=
    cloneHGo_exact cfg.order_options h ⟨[], [], [], cfg.none_options⟩ hwf (le_refl _)
  have hreads : ∀ k, k < (resolveList h cfg.order_options).length →
      (h ++ resolveList h cfg.order_options).get? (h.length + k)
        = (resolveList h cfg.order_options).get? k := by
    intro k hk
    rw [List.get?_eq_getElem?, List.get?_eq_getElem?]
    rw [List.getElem?_append_right (by omega)]
    congr 1
    omega
  have hdr := dispatch_resolve (resolveList h cfg.order_options)
    (h ++ resolveList h cfg.order_options) h.length hreads
  have hnd : (([] ++ (dispatchIdx (resolveList h cfg.order_options) h.length).1)
      ++ ([] ++ (dispatchIdx (resolveList h cfg.order_options) h.length).2)).Nodup := by
    simpa using dispatchIdx_nodup (resolveList h cfg.order_options) h.length
  simp only [parseH, OptionMapH.clone, hclone]
  rw [parseLoopH_refine fuel (h ++ resolveList h cfg.order_options)
    ⟨[] ++ (dispatchIdx (resolveList h cfg.order_options) h.length).1,
     [] ++ (dispatchIdx (resolveList h cfg.order_options) h.length).2,
     ord, cfg.none_options⟩ args hnd]
  have hst : toPureState (h ++ resolveList h cfg.order_options)
      ⟨[] ++ (dispatchIdx (resolveList h cfg.order_options) h.length).1,
       [] ++ (dispatchIdx (resolveList h cfg.order_options) h.length).2,
       ord, cfg.none_options⟩
      = ⟨(dispatchParts (resolveList h cfg.order_options)).1,
         (dispatchParts (resolveList h cfg.order_options)).2, [], cfg.none_options⟩ := by
    simp only [toPureState, List.nil_append]
    rw [hdr.1, hdr.2]
  rw [hst]

/-- C5: a parse never mutates the registry template.  First conjunct: the
whole heap region existing before the call (in particular every entity the
template references) is intact after it — the parse works on freshly
cloned cells.  Second conjunct: a second parse of the same template after
a first parse produces exactly the observable result it produces on the
untouched heap — no mutation of one call leaks into the other. -/
theorem claim_C5_parse_frame :
    ∀ (h : Heap) (cfg : OptionMapH) (fuel1 fuel2 : Nat) (a1 a2 : List String),
      (∀ i ∈ cfg.order_options, i < h.length) →
      ((parseH h cfg fuel1 a1).1.take h.length = h)
    ∧ (resolveRes (parseH (parseH h cfg fuel1 a1).1 cfg fuel2 a2)
         = resolveRes (parseH h cfg fuel2 a2)) := by
  intro h cfg fuel1 fuel2 a1 a2 hwf
  have hfirst : (parseH h cfg fuel1 a1).1.take h.length = h := by
    obtain ⟨ord, hclone⟩ :=
      cloneHGo_exact cfg.order_options h ⟨[], [], [], cfg.none_options⟩ hwf (le_refl _)
    have hbound : ∀ i ∈ ([] ++ (dispatchIdx (resolveList h cfg.order_options) h.length).1)
        ++ ([] ++ (dispatchIdx (resolveList h cfg.order_options) h.length).2), h.length ≤ i := by
      intro i hi
      simp only [List.nil_append] at hi
      exact (dispatchIdx_bounds (resolveList h cfg.order_options) h.length i hi).1
    simp only [parseH, OptionMapH.clone, hclone]
    rw [parseLoopH_frame_low fuel1 (h ++ resolveList h cfg.order_options) _ a1 hbound]
    exact List.take_left h (resolveList h cfg.order_options)
  refine ⟨hfirst, ?_⟩
  have hlen : h.length ≤ (parseH h cfg fuel1 a1).1.length := by
    have hl := congrArg List.length hfirst
    rw [List.length_take] at hl
    omega
  have hwf1 : ∀ i ∈ cfg.order_options, i < (parseH h cfg fuel1 a1).1.length :=
    fun i hi => lt_of_lt_of_le (hwf i hi) hlen
  have hreads : ∀ i ∈ cfg.order_options,
      (parseH h cfg fuel1 a1).1.get? i = h.get? i := by
    intro i hi
    have hik : i < h.length := hwf i hi
    calc (parseH h cfg fuel1 a1).1.get? i
        = ((parseH h cfg fuel1 a1).1.take h.length).get? i := (List.get?_take hik).symm
      _ = h.get? i := by rw [hfirst]
  have hres : resolveList (parseH h cfg fuel1 a1).1 cfg.order_options
      = resolveList h cfg.order_options := resolveList_congr hreads
  rw [parseH_refine (parseH h cfg fuel1 a1).1 cfg fuel2 a2 hwf1,
      parseH_refine h cfg fuel2 a2 hwf, hres]

/-- Concrete template heap for the C5 witness: one plain long option. -/
def heapW : Heap := [Opt.plain ⟨"alpha", "Adesc", false, OPTION_PATTERN.LONG_OPTION⟩]

/-- Concrete heap-level registry for the C5 witness: both the long
partition and the order sequence reference cell 0. -/
def cfgW : OptionMapH := ⟨[], [0], [0], []⟩

/-- Witness for C5 at a concrete template and two concrete argument
vectors. -/
theorem claim_C5_parse_frame_witness :
    (∀ i ∈ cfgW.order_options, i < heapW.length)
  ∧ (((parseH heapW cfgW 3 ["--alpha"]).1.take heapW.length = heapW)
     ∧ (resolveRes (parseH (parseH heapW cfgW 3 ["--alpha"]).1 cfgW 4 ["pos"])
          = resolveRes (parseH heapW cfgW 4 ["pos"]))) :=
  ⟨by decide, claim_C5_parse_frame heapW cfgW 3 4 ["--alpha"] ["pos"] (by decide)⟩
